import Mathlib

/-!
# Verification of the `ectorus` line-walk enumerator for E(F_p)

Shallow embedding of the Go source (field arithmetic over `math/big`,
curve group law, canonical lines, third intersections, the explicit grid,
and the walk engine), together with theorems settling the specification
claims.  `big.Int` values are modelled as `Int`; `big.Int.Mod` with a
positive modulus is Euclidean remainder, i.e. `Int.emod`.
-/

/-- `mod(a, p)`: canonical representative of `a` mod `p` in `[0, p)`.
Go's `big.Int.Mod` is Euclidean (result in `[0, |p|)`), so the sign fixup
in the source is a no-op; this is exactly `Int.emod` for `p > 0`. -/
def mod (a p : Int) : Int := a % p

/-- `addM(a, b, p) = mod(a + b, p)`. -/
def addM (a b p : Int) : Int := mod (a + b) p

/-- `subM(a, b, p) = mod(a - b, p)`. -/
def subM (a b p : Int) : Int := mod (a - b) p

/-- `mulM(a, b, p) = mod(a * b, p)`. -/
def mulM (a b p : Int) : Int := mod (a * b) p

/-- `negM(a, p) = subM(0, a, p)`. -/
def negM (a p : Int) : Int := subM 0 a p

/-- `invM(a, p)`: `nil` error if `a = 0`, otherwise `big.Int.ModInverse`.
`ModInverse` is specified by its value: the unique inverse of `a` in
`[0, p)` when one exists, `nil` (for `p > 0`: exactly when
`gcd(a, p) ≠ 1`) otherwise; realised here by a scan over `[0, p)`. -/
def invM (a p : Int) : Option Int :=
  if a = 0 then none
  else
    match (List.range p.toNat).find? (fun (x : Nat) => mulM a (x : Int) p = 1) with
    | none => none
    | some x => some (x : Int)

/-- `powM(a, e, p) = a^e mod p` (`big.Int.Exp` with non-negative exponent). -/
def powM (a : Int) (e : Nat) (p : Int) : Int := mod (a ^ e) p

/-- `legendre(a, p)`: Euler criterion `a^((p-1)/2) mod p`, read as
`+1` for `1`, `0` for `0`, `-1` otherwise (the residue `p-1`). -/
def legendre (a p : Int) : Int :=
  let A := mod a p
  if A = 0 then 0
  else
    let v := powM A ((p - 1) / 2).toNat p
    if v = 1 then 1 else if v = 0 then 0 else -1

section BridgeLemmas

variable {p : ℕ}

/-- Casting an Euclidean remainder into `ZMod p` forgets the reduction. -/
lemma intCast_mod_eq (a : Int) : ((mod a (p : Int) : Int) : ZMod p) = (a : ZMod p) := by
  unfold mod
  exact ZMod.intCast_mod a p

lemma intCast_addM (a b : Int) : ((addM a b (p : Int) : Int) : ZMod p) = (a : ZMod p) + b := by
  unfold addM; rw [intCast_mod_eq]; push_cast; ring

lemma intCast_subM (a b : Int) : ((subM a b (p : Int) : Int) : ZMod p) = (a : ZMod p) - b := by
  unfold subM; rw [intCast_mod_eq]; push_cast; ring

lemma intCast_mulM (a b : Int) : ((mulM a b (p : Int) : Int) : ZMod p) = (a : ZMod p) * b := by
  unfold mulM; rw [intCast_mod_eq]; push_cast; ring

lemma intCast_negM (a : Int) : ((negM a (p : Int) : Int) : ZMod p) = -(a : ZMod p) := by
  unfold negM; rw [intCast_subM]; push_cast; ring

lemma intCast_powM (a : Int) (e : Nat) :
    ((powM a e (p : Int) : Int) : ZMod p) = (a : ZMod p) ^ e := by
  unfold powM; rw [intCast_mod_eq]; push_cast; ring

lemma mod_nonneg' (hp : 0 < p) (a : Int) : 0 ≤ mod a (p : Int) :=
  Int.emod_nonneg a (by exact_mod_cast hp.ne')

lemma mod_lt' (hp : 0 < p) (a : Int) : mod a (p : Int) < (p : Int) :=
  Int.emod_lt_of_pos a (by exact_mod_cast hp)

/-- Two canonical representatives in `[0, p)` with the same image in
`ZMod p` are equal. -/
lemma eq_of_intCast_eq (hp : 0 < p) {a b : Int} (ha0 : 0 ≤ a) (ha : a < (p : Int))
    (hb0 : 0 ≤ b) (hb : b < (p : Int)) (h : (a : ZMod p) = (b : ZMod p)) : a = b := by
  have hmod : a % (p : Int) = b % (p : Int) := (ZMod.intCast_eq_intCast_iff' a b p).mp h
  rwa [Int.emod_eq_of_lt ha0 ha, Int.emod_eq_of_lt hb0 hb] at hmod

/-- A canonical representative maps to zero iff it is zero. -/
lemma intCast_eq_zero_iff (hp : 0 < p) {a : Int} (ha0 : 0 ≤ a) (ha : a < (p : Int)) :
    (a : ZMod p) = 0 ↔ a = 0 := by
  constructor
  · intro h
    exact eq_of_intCast_eq hp ha0 ha le_rfl (by exact_mod_cast hp) (by simpa using h)
  · rintro rfl; simp

end BridgeLemmas

/-- Error outcomes of `sqrtModP`.  `nonResidue` is Go's `"non-residue"`,
`tsFailure` is `"T–S failure"`; `zSearchDiverged` models the (in Go
non-terminating) non-residue scan running past its fuel, which never
happens for an odd prime modulus. -/
inductive SqrtError
  | nonResidue
  | tsFailure
  | zSearchDiverged
deriving DecidableEq

/-- The halving loop of `factor2`, with structural fuel (`fuel = q`
always suffices since `q` at least halves each step). -/
def factor2Aux : Nat → Nat → Nat × Nat
  | 0, q => (q, 0)
  | fuel + 1, q =>
    if q ≠ 0 ∧ q % 2 = 0 then
      let r := factor2Aux fuel (q / 2)
      (r.1, r.2 + 1)
    else (q, 0)

/-- Factor the odd part: `factor2 n = (q, s)` with `n = q * 2^s`, `q` odd
(for `n ≠ 0`); the `for q.Bit(0) == 0` loop of the source. -/
def factor2 (n : Nat) : Nat × Nat := factor2Aux n n

/-- The linear scan `for legendre(z, p) != -1 { z++ }`, with explicit fuel. -/
def findZ (p : Int) : Nat → Int → Option Int
  | 0, _ => none
  | fuel + 1, z => if legendre z p = -1 then some z else findZ p fuel (z + 1)

/-- The `for i < m` search loop body, with structural fuel
(`fuel = m - i` is invariant, so the fuel never runs out early). -/
def tsSearchAux (p : Int) (m : Nat) : Nat → Nat → Int → Nat
  | 0, i, _ => i
  | fuel + 1, i, b =>
    if i < m then
      if b = 1 then i else tsSearchAux p m fuel (i + 1) (mulM b b p)
    else i

/-- The inner order-finding search of Tonelli–Shanks: starting from
`i = 1` and `b = t^2 mod p`, squares `b` while `i < m` until `b = 1`,
returning the final `i`. -/
def tsSearch (p : Int) (m i : Nat) (b : Int) : Nat := tsSearchAux p m (m - i) i b

/-- `j`-fold modular squaring: the `for j := 0; j < k; j++ { b = b^2 }` loop. -/
def sqIter (p : Int) (b : Int) : Nat → Int
  | 0 => b
  | k + 1 => sqIter p (mulM b b p) k

/-- The main Tonelli–Shanks descent `for t != 1`, with explicit fuel;
state `(c, x, t, m)` exactly as in the source. -/
def tsLoop (p : Int) : Nat → Int → Int → Int → Nat → Except SqrtError Int
  | 0, _, _, _, _ => .error .tsFailure
  | fuel + 1, c, x, t, m =>
    if t = 1 then .ok x
    else
      let i := tsSearch p m 1 (mulM t t p)
      if i = m then .error .tsFailure
      else
        let b := sqIter p c (m - i - 1)
        let bb := mulM b b p
        tsLoop p fuel bb (mulM x b p) (mulM t bb p) i

/-- `sqrtModP(a, p)`: Tonelli–Shanks square root mod an odd prime `p`.
Returns `0` for `a ≡ 0`, rejects non-residues, takes the
`a^((p+1)/4)` shortcut when `p ≡ 3 (mod 4)` (the source tests
`(p-3) AND 3 == 0`, which for any integer equals `(p-3) mod 4 == 0`),
and otherwise runs the descent.  The descent fuel `s + 1` and the scan
fuel `p` are provably sufficient for odd prime `p`. -/
def sqrtModP (a p : Int) : Except SqrtError Int :=
  let A := mod a p
  if A = 0 then .ok 0
  else if legendre A p ≠ 1 then .error .nonResidue
  else if mod (p - 3) 4 = 0 then .ok (powM A ((p + 1) / 4).toNat p)
  else
    let qs := factor2 (p - 1).toNat
    let q := qs.1
    let s := qs.2
    match findZ p p.toNat 2 with
    | none => .error .zSearchDiverged
    | some z =>
      let c := powM z q p
      let x := powM A ((q + 1) / 2) p
      let t := powM A q p
      tsLoop p (s + 1) c x t s

/-- `Curve{P, A, B}`: the curve `y^2 = x^3 + A x + B` over `F_P`. -/
structure Curve where
  P : Int
  A : Int
  B : Int

/-- `Point{X, Y, Inf}`; Go's zero-valued coordinates are modelled as `0`,
so the identity produced by the source is `⟨0, 0, true⟩`. -/
structure Point where
  X : Int
  Y : Int
  Inf : Bool
deriving DecidableEq

/-- The identity `Point{Inf: true}` as constructed by the source. -/
def infPt : Point := { X := 0, Y := 0, Inf := true }

/-- `isSingular`: whether `4A^3 + 27B^2 ≡ 0 (mod p)`. -/
def Curve.isSingular (c : Curve) : Bool :=
  let p := c.P
  let A2 := mulM c.A c.A p
  let A3 := mulM A2 c.A p
  let term := addM (mulM 4 A3 p) (mulM 27 (mulM c.B c.B p) p) p
  term = 0

/-- `on`: membership test `y^2 ≡ x^3 + A x + B (mod p)`. -/
def Curve.on (c : Curve) (Pt : Point) : Bool :=
  if Pt.Inf then true
  else
    let x3 := mulM Pt.X (mulM Pt.X Pt.X c.P) c.P
    let rhs := addM (addM x3 (mulM c.A Pt.X c.P) c.P) c.B c.P
    let y2 := mulM Pt.Y Pt.Y c.P
    y2 = rhs

/-- `neg`: point negation `(x, y) ↦ (x, -y mod p)`. -/
def Curve.neg (c : Curve) (Pt : Point) : Point :=
  if Pt.Inf then Pt
  else { X := Pt.X, Y := negM Pt.Y c.P, Inf := false }

/-- `add`: the chord–tangent group law, returning `none` on a `NoInverse`
failure inside `invM` (the Go method returns `(Point, error)`). -/
def Curve.add (c : Curve) (P Q : Point) : Option Point :=
  let p := c.P
  if P.Inf then some Q
  else if Q.Inf then some P
  else if P.X = Q.X then
    let ysum := mod (P.Y + Q.Y) p
    if ysum = 0 then some infPt
    else if P.Y = 0 then some infPt
    else
      let num := addM (mulM 3 (mulM P.X P.X p) p) c.A p
      let den := mulM 2 P.Y p
      match invM den p with
      | none => none
      | some inv =>
        let lam := mulM num inv p
        let xr := subM (subM (mulM lam lam p) P.X p) Q.X p
        let yr := subM (mulM lam (subM P.X xr p) p) P.Y p
        some { X := xr, Y := yr, Inf := false }
  else
    let num := subM Q.Y P.Y p
    let den := subM Q.X P.X p
    match invM den p with
    | none => none
    | some inv =>
      let lam := mulM num inv p
      let xr := subM (subM (mulM lam lam p) P.X p) Q.X p
      let yr := subM (mulM lam (subM P.X xr p) p) P.Y p
      some { X := xr, Y := yr, Inf := false }

/-- `double(P) = add(P, P)`. -/
def Curve.double (c : Curve) (P : Point) : Option Point := c.add P P

/-- `Line`: non-vertical `y = M x + C (mod p)` or vertical `x = V`;
unset Go fields are zero-valued. -/
structure Line where
  Vertical : Bool
  M : Int
  C : Int
  V : Int
deriving DecidableEq

/-- `Line.key()`: canonical string key. -/
def Line.key (L : Line) : String :=
  if L.Vertical then "v:" ++ toString L.V
  else "m:" ++ toString L.M ++ "|c:" ++ toString L.C

/-- The tangent-at-`P` branch of `lineThrough`: vertical when `y_P = 0`,
else slope `(3x_P^2 + A) / (2y_P)` with intercept `y_P - m x_P`. -/
def tangentLine (c : Curve) (P : Point) : Option Line :=
  let p := c.P
  if P.Y = 0 then some { Vertical := true, M := 0, C := 0, V := P.X }
  else
    let num := addM (mulM 3 (mulM P.X P.X p) p) c.A p
    let den := mulM 2 P.Y p
    match invM den p with
    | none => none
    | some inv =>
      let m := mulM num inv p
      let cst := subM P.Y (mulM m P.X p) p
      some { Vertical := false, M := m, C := cst, V := 0 }

/-- `lineThrough(c, P, Q)`: tangent at `P` when `Q` is absent or when
`P, Q` share `x` with `y`-sum nonzero; vertical when `P, Q` share `x`
with `y`-sum zero; otherwise the secant. -/
def lineThrough (c : Curve) (P : Point) (Q : Option Point) : Option Line :=
  let p := c.P
  match Q with
  | none => tangentLine c P
  | some Qv =>
    if P.X = Qv.X ∧ mod (P.Y + Qv.Y) p ≠ 0 then tangentLine c P
    else if P.X = Qv.X ∧ mod (P.Y + Qv.Y) p = 0 then
      some { Vertical := true, M := 0, C := 0, V := P.X }
    else
      let num := subM Qv.Y P.Y p
      let den := subM Qv.X P.X p
      match invM den p with
      | none => none
      | some inv =>
        let m := mulM num inv p
        let cst := subM P.Y (mulM m P.X p) p
        some { Vertical := false, M := m, C := cst, V := 0 }

/-- `thirdIntersection(c, P, Q)`: the algebraic third point `R` and the
list of recorded affine intersections, exactly as in the source. -/
def thirdIntersection (c : Curve) (P : Point) (Q : Option Point) :
    Option (Point × List Point) :=
  match Q with
  | none =>
    match c.double P with
    | none => none
    | some R =>
      if R.Inf then some (R, [P, c.neg P])
      else some (R, [P, R])
  | some Qv =>
    if P.X = Qv.X ∧ mod (P.Y + Qv.Y) c.P = 0 then
      some (infPt, [P, Qv])
    else
      match c.add P Qv with
      | none => none
      | some R => some (R, [P, Qv, R])

/-- The `Grid` bitsets, modelled as the sets of set bit indices
(`Bitset.set` adds an index, `Bitset.get` tests membership);
`idx(x, y) = y*p + x`. -/
structure Grid where
  p : Int
  found : List Int
  excl : List Int

/-- `newGrid(p)`. -/
def newGrid (p : Int) : Grid := { p := p, found := [], excl := [] }

/-- `idx(x, y) = y*p + x`. -/
def Grid.idx (g : Grid) (x y : Int) : Int := y * g.p + x

/-- `markFound`. -/
def Grid.markFound (g : Grid) (x y : Int) : Grid :=
  { g with found := g.idx x y :: g.found }

/-- `markExcl`. -/
def Grid.markExcl (g : Grid) (x y : Int) : Grid :=
  { g with excl := g.idx x y :: g.excl }

/-- `isExcluded`. -/
def Grid.isExcluded (g : Grid) (x y : Int) : Bool := g.excl.contains (g.idx x y)

/-- `isFound`. -/
def Grid.isFound (g : Grid) (x y : Int) : Bool := g.found.contains (g.idx x y)

/-- The `fmt.Sprintf("%d|%d", x, y)` key used for the `keep` set. -/
def gridKey (x y : Int) : String := toString x ++ "|" ++ toString y

/-- Go's `int(v.Int64()) % p` on a canonical value in `[0, p)` followed by
the negative fixup: Euclidean remainder (the `Int64` truncation is exact
for the reduced values the engine stores, since grid mode needs `p ≤ 10^4`). -/
def gmod (a p : Int) : Int := a.emod p

/-- `markLineExclusions(L, keep)`: mark every lattice point of `L` not in
`keep` as excluded; vertical lines run over `y`, others over
`x ↦ (m x + c) mod p`. -/
def Grid.markLineExclusions (g : Grid) (L : Line) (keep : List String) : Grid :=
  let p := g.p
  if L.Vertical then
    let x := gmod L.V p
    (List.range p.toNat).foldl
      (fun g' (y : Nat) =>
        let k := gridKey x (y : Int)
        if keep.contains k then g' else g'.markExcl x (y : Int)) g
  else
    let m := gmod L.M p
    let c := gmod L.C p
    (List.range p.toNat).foldl
      (fun g' (x : Nat) =>
        let y := gmod (m * (x : Int) + c) p
        let k := gridKey (x : Int) y
        if keep.contains k then g' else g'.markExcl (x : Int) y) g

/-- The walk engine state; Go maps and the order slice become association
lists / lists, with all insertions appended. -/
structure Engine where
  C : Curve
  UseGrid : Bool
  G : Grid
  MaxLines : Int
  KnownCount : Option Int
  found : List (String × Point)
  order : List Point
  indexOf : List (String × Nat)
  deadX : List String
  linesDone : List String
  secantDone : List String
  tangentDone : List String

/-- `pointKey`: `"inf"` or `"x|y"` from the decimal prints. -/
def pointKey (P : Point) : String :=
  if P.Inf then "inf" else toString P.X ++ "|" ++ toString P.Y

/-- `pairKey`: the unordered pair key `k1 + "#" + k2` with the smaller
string first. -/
def pairKey (P Q : Point) : String :=
  let k1 := pointKey P
  let k2 := pointKey Q
  if k1 < k2 then k1 ++ "#" ++ k2 else k2 ++ "#" ++ k1

/-- `addFound(P)`: reject off-curve or already-known points; otherwise
record `P` in `found`, and for affine `P` also in `indexOf`/`order` and
(grid mode) the FOUND bitset. Returns the updated engine and the
inserted flag. -/
def Engine.addFound (e : Engine) (P : Point) : Engine × Bool :=
  if e.C.on P = false then (e, false)
  else
    let k := pointKey P
    if (e.found.map Prod.fst).contains k then (e, false)
    else
      let e1 := { e with found := e.found ++ [(k, P)] }
      if P.Inf then (e1, true)
      else
        let e2 := { e1 with
          indexOf := e1.indexOf ++ [(k, e1.order.length)],
          order := e1.order ++ [P] }
        if e2.UseGrid then
          let x := gmod P.X e2.G.p
          let y := gmod P.Y e2.G.p
          ({ e2 with G := e2.G.markFound x y }, true)
        else (e2, true)

/-- `processLineFrom(P, Q)`: derive the line, skip if already done,
record the intersections and `-R` via `addFound`, mark grid exclusions
keeping the recorded intersections, then mark the line done.
`none` models a returned error. -/
def Engine.processLineFrom (e : Engine) (P : Point) (Q : Option Point) : Option Engine :=
  match lineThrough e.C P Q with
  | none => none
  | some L =>
    let lk := L.key
    if e.linesDone.contains lk then some e
    else
      match thirdIntersection e.C P Q with
      | none => none
      | some (R, inters) =>
        let e1 := inters.foldl (fun acc S => (acc.addFound S).1) e
        let e2 := if R.Inf then e1 else (e1.addFound (e1.C.neg R)).1
        let e3 :=
          if e2.UseGrid then
            let keep := inters.foldl
              (fun ks S =>
                if S.Inf then ks
                else ks ++ [gridKey (gmod S.X e2.G.p) (gmod S.Y e2.G.p)]) []
            { e2 with G := e2.G.markLineExclusions L keep }
          else e2
        some { e3 with linesDone := e3.linesDone ++ [lk] }


section FieldOpFacts

variable {p : ℕ}

lemma mulM_nonneg (hp : 0 < p) (a b : Int) : 0 ≤ mulM a b (p : Int) :=
  mod_nonneg' hp _

lemma mulM_lt (hp : 0 < p) (a b : Int) : mulM a b (p : Int) < (p : Int) :=
  mod_lt' hp _

/-- From a concrete product identity `a·i ≡ 1` to the field inverse. -/
lemma cast_eq_inv_of_mulM_eq_one [Fact p.Prime] {a i : Int} (h : mulM a i (p : Int) = 1) :
    ((i : Int) : ZMod p) = ((a : ZMod p))⁻¹ := by
  have hcast : ((a : ZMod p)) * ((i : Int) : ZMod p) = 1 := by
    have := congrArg (fun z : Int => (z : ZMod p)) h
    simpa [intCast_mulM] using this
  exact eq_inv_of_mul_eq_one_right hcast

/-- `invM` succeeds on any canonical nonzero value mod a prime, with the
returned inverse canonical and correct. -/
lemma invM_some [hp : Fact p.Prime] {a : Int} (ha0 : 0 < a) (hap : a < (p : Int)) :
    ∃ i, invM a (p : Int) = some i ∧ 0 ≤ i ∧ i < (p : Int) ∧ mulM a i (p : Int) = 1 := by
  have hpPos : 0 < p := hp.out.pos
  have hp1 : 1 < p := hp.out.one_lt
  have htoNat : ((p : Int)).toNat = p := Int.toNat_natCast p
  have hane : (a : ZMod p) ≠ 0 := fun h => ha0.ne' ((intCast_eq_zero_iff hpPos ha0.le hap).mp h)
  have hbcast : ((((((a : ZMod p))⁻¹).val : ℕ) : Int) : ZMod p) = ((a : ZMod p))⁻¹ := by
    rw [Int.cast_natCast, ZMod.natCast_val, ZMod.cast_id]
  have hpred : mulM a ((((a : ZMod p))⁻¹).val : Int) (p : Int) = 1 := by
    refine eq_of_intCast_eq hpPos (mulM_nonneg hpPos _ _) (mulM_lt hpPos _ _)
      (by norm_num) (by exact_mod_cast hp1) ?_
    rw [intCast_mulM, hbcast]
    push_cast
    exact mul_inv_cancel₀ hane
  have hmem : (((a : ZMod p))⁻¹).val ∈ List.range ((p : Int)).toNat := by
    rw [List.mem_range, htoNat]
    exact ZMod.val_lt _
  rcases hfind : (List.range ((p : Int)).toNat).find?
      (fun (x : Nat) => mulM a (x : Int) (p : Int) = 1) with _ | x
  · exfalso
    have hnone := List.find?_eq_none.mp hfind _ hmem
    simp only [decide_eq_true_eq] at hnone
    exact hnone hpred
  · have hxprop : mulM a (x : Int) (p : Int) = 1 := by
      have := List.find?_some hfind
      simpa using this
    have hxmem : x < p := by
      have := List.mem_range.mp (List.mem_of_find?_eq_some hfind)
      omega
    refine ⟨(x : Int), ?_, by positivity, by exact_mod_cast hxmem, hxprop⟩
    unfold invM
    rw [if_neg ha0.ne', hfind]

/-- `(p-1)/2` as computed by the source equals `p / 2` for odd `p`. -/
lemma half_pred_eq (hodd : p % 2 = 1) : (((p : Int) - 1) / 2).toNat = p / 2 := by
  omega

lemma two_lt_p [hp : Fact p.Prime] (hodd : p % 2 = 1) : 2 < p := by
  have := hp.out.two_le
  omega

/-- The Euler-power value computed by `legendre` on a nonzero input. -/
lemma legendre_powM_cast (hodd : p % 2 = 1) (a : Int) :
    ((powM (mod a (p : Int)) (((p : Int) - 1) / 2).toNat (p : Int) : Int) : ZMod p)
      = (a : ZMod p) ^ (p / 2) := by
  rw [intCast_powM, intCast_mod_eq, half_pred_eq hodd]

/-- Reading off `legendre = 1`: the canonical value is nonzero and the
Euler power is one. -/
lemma legendre_eq_one_iff [hp : Fact p.Prime] (hodd : p % 2 = 1) (a : Int) :
    legendre a (p : Int) = 1 ↔ ((a : ZMod p) ≠ 0 ∧ (a : ZMod p) ^ (p / 2) = 1) := by
  have hpPos : 0 < p := hp.out.pos
  have h2p : 2 < p := two_lt_p hodd
  simp only [legendre]
  by_cases hA : mod a (p : Int) = 0
  · rw [if_pos hA]
    constructor
    · intro h; exact absurd h (by norm_num)
    · rintro ⟨h0, -⟩
      exfalso
      apply h0
      rw [← intCast_mod_eq, hA]
      simp
  · rw [if_neg hA]
    have hAcast : ((a : ZMod p)) ≠ 0 := by
      intro h
      apply hA
      apply (intCast_eq_zero_iff hpPos (mod_nonneg' hpPos a) (mod_lt' hpPos a)).mp
      rw [intCast_mod_eq]; exact h
    constructor
    · intro h
      by_cases hv : powM (mod a (p : Int)) (((p : Int) - 1) / 2).toNat (p : Int) = 1
      · refine ⟨hAcast, ?_⟩
        rw [← legendre_powM_cast hodd a, hv]
        norm_num
      · rw [if_neg hv] at h
        by_cases hv0 : powM (mod a (p : Int)) (((p : Int) - 1) / 2).toNat (p : Int) = 0
        · rw [if_pos hv0] at h; exact absurd h (by norm_num)
        · rw [if_neg hv0] at h; exact absurd h (by norm_num)
    · rintro ⟨-, hpow⟩
      have hv : powM (mod a (p : Int)) (((p : Int) - 1) / 2).toNat (p : Int) = 1 := by
        refine eq_of_intCast_eq hpPos (mod_nonneg' hpPos _) (mod_lt' hpPos _)
          (by norm_num) (by exact_mod_cast h2p.trans' (by norm_num)) ?_
        rw [legendre_powM_cast hodd a, hpow]
        norm_num
      rw [if_pos hv]

end FieldOpFacts

section LegendreFacts

variable {p : ℕ}

/-- `legendre` only depends on the residue. -/
lemma legendre_mod (a q : Int) : legendre (mod a q) q = legendre a q := by
  simp only [legendre, mod, Int.emod_emod_of_dvd a (dvd_refl q)]

/-- `legendre a p = 0` exactly on the zero residue (prime `p`). -/
lemma legendre_eq_zero_iff [hp : Fact p.Prime] (hodd : p % 2 = 1) (a : Int) :
    legendre a (p : Int) = 0 ↔ (a : ZMod p) = 0 := by
  have hpPos : 0 < p := hp.out.pos
  constructor
  · intro h
    by_contra hane
    have hA : mod a (p : Int) ≠ 0 := by
      intro h0
      apply hane
      rw [← intCast_mod_eq, h0]; simp
    simp only [legendre, if_neg hA] at h
    set v := powM (mod a (p : Int)) (((p : Int) - 1) / 2).toNat (p : Int) with hv
    have hvne : v ≠ 0 := by
      intro h0
      have : ((a : ZMod p)) ^ (p / 2) = 0 := by
        rw [← legendre_powM_cast hodd a, ← hv, h0]; simp
      exact hane (pow_eq_zero_iff'.mp this).1
    by_cases h1 : v = 1
    · rw [if_pos h1] at h; exact absurd h (by norm_num)
    · rw [if_neg h1, if_neg hvne] at h; exact absurd h (by norm_num)
  · intro h
    have hA : mod a (p : Int) = 0 := by
      apply (intCast_eq_zero_iff hpPos (mod_nonneg' hpPos a) (mod_lt' hpPos a)).mp
      rw [intCast_mod_eq]; exact h
    simp only [legendre, if_pos hA]

/-- A nonzero non-square has Euler power `-1`. -/
lemma pow_half_eq_neg_one_of_not_isSquare [hp : Fact p.Prime] (hodd : p % 2 = 1)
    {a : ZMod p} (ha : a ≠ 0) (hns : ¬IsSquare a) : a ^ (p / 2) = -1 := by
  have h2 : p / 2 + p / 2 = p - 1 := by
    have := hp.out.two_le
    omega
  have h1 : (a ^ (p / 2)) * (a ^ (p / 2)) = 1 := by
    rw [← pow_add, h2]
    exact ZMod.pow_card_sub_one_eq_one ha
  rcases mul_self_eq_one_iff.mp h1 with h | h
  · exact absurd ((ZMod.euler_criterion p ha).mpr h) hns
  · exact h

/-- `legendre` returns `-1` on nonzero non-squares. -/
lemma legendre_eq_neg_one_of_not_isSquare [hp : Fact p.Prime] (hodd : p % 2 = 1)
    {a : Int} (ha : (a : ZMod p) ≠ 0) (hns : ¬IsSquare ((a : ZMod p))) :
    legendre a (p : Int) = -1 := by
  have hpPos : 0 < p := hp.out.pos
  have h2p : 2 < p := two_lt_p hodd
  have hA : mod a (p : Int) ≠ 0 := by
    intro h0
    apply ha
    rw [← intCast_mod_eq, h0]; simp
  simp only [legendre, if_neg hA]
  set v := powM (mod a (p : Int)) (((p : Int) - 1) / 2).toNat (p : Int) with hv
  have hveq : v = (p : Int) - 1 := by
    refine eq_of_intCast_eq hpPos (mod_nonneg' hpPos _) (mod_lt' hpPos _)
      (by push_cast; omega) (by push_cast; omega) ?_
    rw [hv, legendre_powM_cast hodd a,
      pow_half_eq_neg_one_of_not_isSquare hodd ha hns]
    push_cast
    simp
  rw [if_neg (by omega), if_neg (by omega)]

/-- `legendre` returns `1` on nonzero squares. -/
lemma legendre_eq_one_of_isSquare [hp : Fact p.Prime] (hodd : p % 2 = 1)
    {a : Int} (ha : (a : ZMod p) ≠ 0) (hsq : IsSquare ((a : ZMod p))) :
    legendre a (p : Int) = 1 :=
  (legendre_eq_one_iff hodd a).mpr ⟨ha, (ZMod.euler_criterion p ha).mp hsq⟩

end LegendreFacts

/-- C4 counterexample: for the odd prime `p = 5` and `a = 0` we have
`legendre(0, 5) = 0 ≠ 1`, yet `sqrtModP(0, 5)` succeeds with value `0`
instead of returning the non-residue error, refuting the claim at this
input. -/
theorem c4_counterexample :
    Nat.Prime 5 ∧ legendre 0 5 = 0 ∧ sqrtModP 0 5 = Except.ok 0 ∧
      ∀ e : SqrtError, sqrtModP 0 5 ≠ Except.error e := by
  refine ⟨by norm_num, rfl, rfl, ?_⟩
  intro e h
  rw [(rfl : sqrtModP 0 5 = Except.ok 0)] at h
  exact Except.noConfusion h

/-- C4 (amended): `sqrtModP(a, p)` returns the non-residue error whenever
`legendre(a, p) = -1`; for `a ≡ 0 (mod p)` it instead returns `0` without
error. -/
theorem c4_sqrtModP_nonresidue (a p : Int) :
    (legendre a p = -1 → sqrtModP a p = Except.error SqrtError.nonResidue) ∧
    (mod a p = 0 → sqrtModP a p = Except.ok 0) := by
  constructor
  · intro h
    have hA : mod a p ≠ 0 := by
      intro h0
      have h0' : legendre a p = 0 := by
        simp only [legendre, h0, if_pos]
      rw [h0'] at h
      exact absurd h (by norm_num)
    have hleg : ¬(legendre (mod a p) p = 1) := by
      rw [legendre_mod, h]
      norm_num
    simp only [sqrtModP, if_neg hA, if_pos hleg]
  · intro h
    simp only [sqrtModP, if_pos h]

/-- C4 witness: `legendre(2, 5) = -1` gives the non-residue error, and
`a = 0` gives the value `0`. -/
theorem c4_witness :
    sqrtModP 2 5 = Except.error SqrtError.nonResidue ∧ sqrtModP 0 5 = Except.ok 0 :=
  ⟨(c4_sqrtModP_nonresidue 2 5).1 rfl, (c4_sqrtModP_nonresidue 0 5).2 rfl⟩

/-- A point is the identity or has coordinates reduced into `[0, p)`
(the claims' validity condition on engine points). -/
def Point.reduced (p : Int) (P : Point) : Prop :=
  P.Inf = true ∨ (P.Inf = false ∧ 0 ≤ P.X ∧ P.X < p ∧ 0 ≤ P.Y ∧ P.Y < p)

section AddTotal

variable {p : ℕ} [hp : Fact p.Prime]

/-- A nonzero difference of two canonical representatives has nonzero
canonical residue. -/
lemma subM_ne_zero (hpPos : 0 < p) {x₁ x₂ : Int} (h1 : 0 ≤ x₁) (h2 : x₁ < (p : Int))
    (h3 : 0 ≤ x₂) (h4 : x₂ < (p : Int)) (hne : x₁ ≠ x₂) :
    subM x₂ x₁ (p : Int) ≠ 0 := by
  intro h0
  have hcast : ((x₂ : ZMod p)) - ((x₁ : ZMod p)) = 0 := by
    have := congrArg (fun z : Int => (z : ZMod p)) h0
    simpa [intCast_subM] using this
  have : ((x₁ : ZMod p)) = ((x₂ : ZMod p)) := by linear_combination -hcast
  exact hne (eq_of_intCast_eq hpPos h1 h2 h3 h4 this)

/-- The doubling denominator `2 y` has nonzero canonical residue for
`0 < y < p` and odd prime `p`. -/
lemma doubling_den_ne_zero (hodd : p % 2 = 1) {y : Int} (hy0 : 0 ≤ y)
    (hyp : y < (p : Int)) (hy : y ≠ 0) : mulM 2 y (p : Int) ≠ 0 := by
  have hpPos : 0 < p := hp.out.pos
  have h2p : 2 < p := two_lt_p hodd
  intro h0
  have hcast : (2 : ZMod p) * ((y : ZMod p)) = 0 := by
    have := congrArg (fun z : Int => (z : ZMod p)) h0
    simpa [intCast_mulM] using this
  have h2ne : (2 : ZMod p) ≠ 0 := by
    intro h2
    have : ((2 : ℕ) : ZMod p) = 0 := by push_cast; exact h2
    have := (ZMod.natCast_zmod_eq_zero_iff_dvd 2 p).mp this
    have := Nat.le_of_dvd (by norm_num) this
    omega
  have hyne : ((y : ZMod p)) ≠ 0 :=
    fun h => hy ((intCast_eq_zero_iff hpPos hy0 hyp).mp h)
  rcases mul_eq_zero.mp hcast with h | h
  · exact h2ne h
  · exact hyne h

/-- The group law `add` always succeeds on reduced points over an odd
prime (the case guards keep every denominator invertible). -/
lemma add_isSome (hodd : p % 2 = 1) (c : Curve) (hc : c.P = (p : Int))
    (P Q : Point) (hP : Point.reduced c.P P) (hQ : Point.reduced c.P Q) :
    ∃ S, c.add P Q = some S := by
  have hpPos : 0 < p := hp.out.pos
  obtain ⟨cP, cA, cB⟩ := c
  dsimp only at hc hP hQ
  subst hc
  by_cases hPInf : P.Inf
  · exact ⟨Q, by simp only [Curve.add, hPInf, if_pos]⟩
  · by_cases hQInf : Q.Inf
    · refine ⟨P, ?_⟩
      simp only [Curve.add, hPInf, hQInf]
      simp
    · rcases hP with h | ⟨-, hPx0, hPxp, hPy0, hPyp⟩
      · exact absurd h (by simpa using hPInf)
      rcases hQ with h | ⟨-, hQx0, hQxp, hQy0, hQyp⟩
      · exact absurd h (by simpa using hQInf)
      by_cases hxeq : P.X = Q.X
      · by_cases hysum : mod (P.Y + Q.Y) ((p : Nat) : Int) = 0
        · refine ⟨infPt, ?_⟩
          simp only [Curve.add, hPInf, hQInf, hxeq, hysum]
          simp
        · by_cases hy0 : P.Y = 0
          · refine ⟨infPt, ?_⟩
            simp only [Curve.add, hPInf, hQInf, hxeq, hysum, hy0]
            simp
          · have hden : mulM 2 P.Y ((p : Nat) : Int) ≠ 0 :=
              doubling_den_ne_zero hodd hPy0 hPyp hy0
            have hden0 : 0 < mulM 2 P.Y ((p : Nat) : Int) :=
              (mod_nonneg' hpPos (2 * P.Y)).lt_of_ne (Ne.symm hden)
            obtain ⟨i, hi, -, -, -⟩ := invM_some hden0 (mulM_lt hpPos 2 P.Y)
            simp only [Curve.add, hPInf, hQInf, hxeq, hysum, hy0, hi]
            exact ⟨_, rfl⟩
      · have hden : subM Q.X P.X ((p : Nat) : Int) ≠ 0 :=
          subM_ne_zero hpPos hPx0 hPxp hQx0 hQxp hxeq
        have hden0 : 0 < subM Q.X P.X ((p : Nat) : Int) :=
          (mod_nonneg' hpPos (Q.X - P.X)).lt_of_ne (Ne.symm hden)
        obtain ⟨i, hi, -, -, -⟩ := invM_some hden0 (mod_lt' hpPos _)
        simp only [Curve.add, hPInf, hQInf, hxeq, hi]
        exact ⟨_, rfl⟩
end AddTotal

/-- C9: for an odd prime `p` and any two points that are each the
identity or an affine pair with coordinates reduced into `[0, p)`,
`add` never returns the `NoInverse` error: every denominator reaching
`invM` under the case guards is nonzero mod `p`. -/
theorem c9_add_never_fails {p : ℕ} [Fact p.Prime] (hodd : p % 2 = 1) (c : Curve)
    (hc : c.P = (p : Int)) (P Q : Point)
    (hP : Point.reduced c.P P) (hQ : Point.reduced c.P Q) :
    ∃ S, c.add P Q = some S :=
  add_isSome hodd c hc P Q hP hQ

/-- C9 witness: a doubling and a secant case on `y^2 = x^3 + 1` over
`F_11` both succeed. -/
theorem c9_witness :
    ∃ S, Curve.add { P := 11, A := 0, B := 1 }
      { X := 0, Y := 1, Inf := false } { X := 2, Y := 3, Inf := false } = some S := by
  haveI : Fact (Nat.Prime 11) := ⟨by norm_num⟩
  exact c9_add_never_fails (p := 11) rfl { P := 11, A := 0, B := 1 } rfl _ _
    (Or.inr (by norm_num)) (Or.inr (by norm_num))

section OnCurveCast

variable {p : ℕ}

lemma intCast_ne_of_ne (hpPos : 0 < p) {a b : Int} (ha0 : 0 ≤ a) (ha : a < (p : Int))
    (hb0 : 0 ≤ b) (hb : b < (p : Int)) (h : a ≠ b) : (a : ZMod p) ≠ (b : ZMod p) :=
  fun hcast => h (eq_of_intCast_eq hpPos ha0 ha hb0 hb hcast)

/-- The Boolean membership test `on` for an affine point, read in `ZMod p`. -/
lemma on_cast (hpPos : 0 < p) {c : Curve} (hc : c.P = (p : Int)) {P : Point}
    (hInf : P.Inf = false) :
    c.on P = true ↔
      ((P.Y : ZMod p)) ^ 2 =
        ((P.X : ZMod p)) ^ 3 + ((c.A : ZMod p)) * ((P.X : ZMod p)) + ((c.B : ZMod p)) := by
  obtain ⟨cP, cA, cB⟩ := c
  dsimp only at hc ⊢
  subst hc
  simp only [Curve.on, hInf, Bool.false_eq_true, if_false, decide_eq_true_eq]
  constructor
  · intro h
    have := congrArg (fun z : Int => (z : ZMod p)) h
    simp only [intCast_mulM, intCast_addM] at this
    linear_combination this
  · intro h
    refine eq_of_intCast_eq hpPos (mod_nonneg' hpPos _) (mod_lt' hpPos _)
      (mod_nonneg' hpPos _) (mod_lt' hpPos _) ?_
    show ((mulM P.Y P.Y _ : Int) : ZMod p) = ((addM (addM _ _ _) cB _ : Int) : ZMod p)
    simp only [intCast_mulM, intCast_addM]
    linear_combination h

/-- Two affine on-curve points sharing an `x`-coordinate have equal or
opposite `y`-coordinates in `ZMod p`. -/
lemma y_eq_or_neg [hp : Fact p.Prime] {c : Curve} (hc : c.P = (p : Int)) {P Q : Point}
    (hPInf : P.Inf = false) (hQInf : Q.Inf = false)
    (hPon : c.on P = true) (hQon : c.on Q = true) (hx : P.X = Q.X) :
    ((P.Y : ZMod p)) = ((Q.Y : ZMod p)) ∨ ((P.Y : ZMod p)) = -((Q.Y : ZMod p)) := by
  have hpPos : 0 < p := hp.out.pos
  have h1 := (on_cast hpPos hc hPInf).mp hPon
  have h2 := (on_cast hpPos hc hQInf).mp hQon
  rw [hx] at h1
  have hsq : ((P.Y : ZMod p)) ^ 2 = ((Q.Y : ZMod p)) ^ 2 := h1.trans h2.symm
  have hfac : (((P.Y : ZMod p)) - ((Q.Y : ZMod p))) * (((P.Y : ZMod p)) + ((Q.Y : ZMod p))) = 0 := by
    linear_combination hsq
  rcases mul_eq_zero.mp hfac with h | h
  · left; linear_combination h
  · right; linear_combination h

end OnCurveCast

/-- C8: for two distinct affine on-curve points with reduced coordinates,
`lineThrough(P, Q)` and `lineThrough(Q, P)` succeed and produce identical
canonical keys (same vertical key, or same slope and intercept). -/
theorem c8_lineThrough_symmetric {p : ℕ} [hp : Fact p.Prime] (hodd : p % 2 = 1) (c : Curve)
    (hc : c.P = (p : Int)) (P Q : Point)
    (hPInf : P.Inf = false) (hQInf : Q.Inf = false)
    (hP : Point.reduced c.P P) (hQ : Point.reduced c.P Q)
    (hPon : c.on P = true) (hQon : c.on Q = true) (hne : P ≠ Q) :
    ∃ L₁ L₂, lineThrough c P (some Q) = some L₁ ∧ lineThrough c Q (some P) = some L₂ ∧
      L₁.key = L₂.key := by
  have hpPos : 0 < p := hp.out.pos
  rcases hP with h | ⟨-, hPx0, hPxp, hPy0, hPyp⟩
  · rw [hPInf] at h; exact absurd h (by simp)
  rcases hQ with h | ⟨-, hQx0, hQxp, hQy0, hQyp⟩
  · rw [hQInf] at h; exact absurd h (by simp)
  have hyy := fun hxeq => y_eq_or_neg hc hPInf hQInf hPon hQon hxeq
  obtain ⟨cP, cA, cB⟩ := c
  dsimp only at hc hPxp hPyp hQxp hQyp
  subst hc
  by_cases hxeq : P.X = Q.X
  · have hysum : mod (P.Y + Q.Y) ((p : ℕ) : Int) = 0 := by
      rcases hyy hxeq with h | h
      · exfalso
        have hy : P.Y = Q.Y := eq_of_intCast_eq hpPos hPy0 hPyp hQy0 hQyp h
        apply hne
        obtain ⟨px, py, pi⟩ := P
        obtain ⟨qx, qy, qi⟩ := Q
        simp_all
      · have hcast0 : ((mod (P.Y + Q.Y) ((p : ℕ) : Int) : Int) : ZMod p) = 0 := by
          rw [intCast_mod_eq]
          push_cast
          linear_combination h
        exact (intCast_eq_zero_iff hpPos (mod_nonneg' hpPos _) (mod_lt' hpPos _)).mp hcast0
    have hysum' : mod (Q.Y + P.Y) ((p : ℕ) : Int) = 0 := by
      rw [add_comm]
      exact hysum
    refine ⟨{ Vertical := true, M := 0, C := 0, V := P.X },
      { Vertical := true, M := 0, C := 0, V := Q.X }, ?_, ?_, ?_⟩
    · simp only [lineThrough]
      rw [if_neg (fun hcond => hcond.2 hysum), if_pos ⟨hxeq, hysum⟩]
    · simp only [lineThrough]
      rw [if_neg (fun hcond => hcond.2 hysum'), if_pos ⟨hxeq.symm, hysum'⟩]
    · simp only [Line.key, hxeq]
  · have hden1 : subM Q.X P.X ((p : ℕ) : Int) ≠ 0 :=
      subM_ne_zero hpPos hPx0 hPxp hQx0 hQxp hxeq
    have hden2 : subM P.X Q.X ((p : ℕ) : Int) ≠ 0 :=
      subM_ne_zero hpPos hQx0 hQxp hPx0 hPxp (Ne.symm hxeq)
    obtain ⟨i₁, hi₁, -, -, hinv₁⟩ :=
      invM_some ((mod_nonneg' hpPos (Q.X - P.X)).lt_of_ne (Ne.symm hden1)) (mod_lt' hpPos _)
    obtain ⟨i₂, hi₂, -, -, hinv₂⟩ :=
      invM_some ((mod_nonneg' hpPos (P.X - Q.X)).lt_of_ne (Ne.symm hden2)) (mod_lt' hpPos _)
    have hxne : ((Q.X : ZMod p)) - ((P.X : ZMod p)) ≠ 0 := by
      intro h0
      exact intCast_ne_of_ne hpPos hQx0 hQxp hPx0 hPxp (Ne.symm hxeq) (by linear_combination h0)
    have hicast₁ := cast_eq_inv_of_mulM_eq_one (p := p) hinv₁
    have hicast₂ := cast_eq_inv_of_mulM_eq_one (p := p) hinv₂
    rw [intCast_mod_eq] at hicast₁ hicast₂
    push_cast at hicast₁ hicast₂
    have hi₁' : invM (subM Q.X P.X ((p : ℕ) : Int)) ((p : ℕ) : Int) = some i₁ := hi₁
    have hi₂' : invM (subM P.X Q.X ((p : ℕ) : Int)) ((p : ℕ) : Int) = some i₂ := hi₂
    have hm : mulM (subM Q.Y P.Y ((p : ℕ) : Int)) i₁ ((p : ℕ) : Int) =
        mulM (subM P.Y Q.Y ((p : ℕ) : Int)) i₂ ((p : ℕ) : Int) := by
      refine eq_of_intCast_eq hpPos (mod_nonneg' hpPos _) (mod_lt' hpPos _)
        (mod_nonneg' hpPos _) (mod_lt' hpPos _) ?_
      rw [intCast_mulM, intCast_mulM, hicast₁, hicast₂, intCast_subM, intCast_subM]
      rw [show ((P.X : ZMod p)) - ((Q.X : ZMod p)) = -(((Q.X : ZMod p)) - ((P.X : ZMod p)))
        from by ring, inv_neg]
      ring
    have hcst : subM P.Y (mulM (mulM (subM Q.Y P.Y ((p : ℕ) : Int)) i₁ ((p : ℕ) : Int)) P.X
          ((p : ℕ) : Int)) ((p : ℕ) : Int) =
        subM Q.Y (mulM (mulM (subM P.Y Q.Y ((p : ℕ) : Int)) i₂ ((p : ℕ) : Int)) Q.X
          ((p : ℕ) : Int)) ((p : ℕ) : Int) := by
      refine eq_of_intCast_eq hpPos (mod_nonneg' hpPos _) (mod_lt' hpPos _)
        (mod_nonneg' hpPos _) (mod_lt' hpPos _) ?_
      simp only [intCast_subM, intCast_mulM]
      rw [hicast₁, hicast₂,
        show ((P.X : ZMod p)) - ((Q.X : ZMod p)) = -(((Q.X : ZMod p)) - ((P.X : ZMod p)))
        from by ring, inv_neg]
      field_simp [hxne]
      ring
    refine ⟨⟨false, mulM (subM Q.Y P.Y ((p : ℕ) : Int)) i₁ ((p : ℕ) : Int), subM P.Y (mulM (mulM (subM Q.Y P.Y ((p : ℕ) : Int)) i₁ ((p : ℕ) : Int)) P.X ((p : ℕ) : Int)) ((p : ℕ) : Int), 0⟩, ⟨false, mulM (subM P.Y Q.Y ((p : ℕ) : Int)) i₂ ((p : ℕ) : Int), subM Q.Y (mulM (mulM (subM P.Y Q.Y ((p : ℕ) : Int)) i₂ ((p : ℕ) : Int)) Q.X ((p : ℕ) : Int)) ((p : ℕ) : Int), 0⟩, ?_, ?_, ?_⟩
    · simp only [lineThrough]
      rw [if_neg (fun hcond => hxeq hcond.1), if_neg (fun hcond => hxeq hcond.1), hi₁']
    · simp only [lineThrough]
      rw [if_neg (fun hcond => hxeq (Eq.symm hcond.1)),
        if_neg (fun hcond => hxeq (Eq.symm hcond.1)), hi₂']
    · simp only [Line.key, Bool.false_eq_true, if_false]
      rw [hcst, hm]

/-- C8 witness: the secant through `(0,1)` and `(2,3)` on `y^2 = x^3 + 1`
over `F_11` has the same key from either endpoint order. -/
theorem c8_witness :
    ∃ L₁ L₂,
      lineThrough { P := 11, A := 0, B := 1 } { X := 0, Y := 1, Inf := false }
        (some { X := 2, Y := 3, Inf := false }) = some L₁ ∧
      lineThrough { P := 11, A := 0, B := 1 } { X := 2, Y := 3, Inf := false }
        (some { X := 0, Y := 1, Inf := false }) = some L₂ ∧
      L₁.key = L₂.key := by
  haveI : Fact (Nat.Prime 11) := ⟨by norm_num⟩
  exact c8_lineThrough_symmetric (p := 11) rfl { P := 11, A := 0, B := 1 } rfl _ _ rfl rfl
    (Or.inr (by norm_num)) (Or.inr (by norm_num)) (by decide) (by decide) (by decide)

section Reflection

variable {p : ℕ} [hp : Fact p.Prime]

lemma two_ne_zero_zmod (hodd : p % 2 = 1) : (2 : ZMod p) ≠ 0 := by
  intro h2
  have h2n : ((2 : ℕ) : ZMod p) = 0 := by push_cast; exact h2
  have hdvd := (ZMod.natCast_zmod_eq_zero_iff_dvd 2 p).mp h2n
  have := Nat.le_of_dvd (by norm_num) hdvd
  have := hp.out.two_le
  omega

/-- Core of the reflection property: for a line with slope `lam` through
`(xP, yP)` (intercept `yP - lam·xP`), the chord-tangent result ordinate
`yr = lam(xP - xr) - yP` is the mirror of the line's value at `xr`:
the line passes through `(xr, -yr)`, and through `(xr, yr)` iff `yr = 0`. -/
lemma lineEq_core (hodd : p % 2 = 1) (lam xP yP xr : Int) :
    mod (lam * xr + subM yP (mulM lam xP (p : Int)) (p : Int)) (p : Int)
      = negM (subM (mulM lam (subM xP xr (p : Int)) (p : Int)) yP (p : Int)) (p : Int)
    ∧ (mod (lam * xr + subM yP (mulM lam xP (p : Int)) (p : Int)) (p : Int)
        = subM (mulM lam (subM xP xr (p : Int)) (p : Int)) yP (p : Int)
      ↔ subM (mulM lam (subM xP xr (p : Int)) (p : Int)) yP (p : Int) = 0) := by
  have hpPos : 0 < p := hp.out.pos
  set yr : Int := subM (mulM lam (subM xP xr (p : Int)) (p : Int)) yP (p : Int) with hyr
  have hyr0 : 0 ≤ yr := mod_nonneg' hpPos _
  have hyrp : yr < (p : Int) := mod_lt' hpPos _
  have hline : ((mod (lam * xr + subM yP (mulM lam xP (p : Int)) (p : Int)) (p : Int) : Int)
      : ZMod p) = -((yr : ZMod p)) := by
    rw [hyr, intCast_mod_eq]
    push_cast
    simp only [intCast_subM, intCast_mulM]
    ring
  constructor
  · refine eq_of_intCast_eq hpPos (mod_nonneg' hpPos _) (mod_lt' hpPos _)
      (mod_nonneg' hpPos _) (mod_lt' hpPos _) ?_
    rw [hline, intCast_negM]
  · constructor
    · intro h
      have hcast := congrArg (fun z : Int => (z : ZMod p)) h
      simp only at hcast
      rw [hline] at hcast
      have h2y : (2 : ZMod p) * ((yr : ZMod p)) = 0 := by linear_combination -hcast
      rcases mul_eq_zero.mp h2y with h2 | hy
      · exact absurd h2 (two_ne_zero_zmod hodd)
      · exact (intCast_eq_zero_iff hpPos hyr0 hyrp).mp hy
    · intro h
      rw [h]
      refine eq_of_intCast_eq hpPos (mod_nonneg' hpPos _) (mod_lt' hpPos _)
        le_rfl (by exact_mod_cast hpPos) ?_
      rw [hline]
      have : ((yr : Int) : ZMod p) = 0 := by rw [h]; simp
      rw [this]
      simp

end Reflection

/-- C10: for a non-vertical processed line (secant through affine
`P, Q` with distinct `x`, or tangent at `P`), with affine algebraic third
point `R` from `thirdIntersection`, the negation `neg(R)` satisfies the
line equation `y ≡ Mx + C (mod p)`, while `R` itself satisfies it exactly
when `y_R = 0`. -/
theorem c10_negR_on_line {p : ℕ} [hp : Fact p.Prime] (hodd : p % 2 = 1) (c : Curve)
    (hc : c.P = (p : Int)) (P : Point) (Qopt : Option Point)
    (hPInf : P.Inf = false) (hP : Point.reduced c.P P) (hPon : c.on P = true)
    (hQ : ∀ Q, Qopt = some Q → Q.Inf = false ∧ Point.reduced c.P Q ∧ c.on Q = true ∧ P.X ≠ Q.X)
    (R : Point) (inters : List Point) (L : Line)
    (hti : thirdIntersection c P Qopt = some (R, inters)) (hR : R.Inf = false)
    (hlt : lineThrough c P Qopt = some L) :
    L.Vertical = false ∧
    mod (L.M * (c.neg R).X + L.C) c.P = (c.neg R).Y ∧
    (mod (L.M * R.X + L.C) c.P = R.Y ↔ R.Y = 0) := by
  have hpPos : 0 < p := hp.out.pos
  rcases hP with h | ⟨-, hPx0, hPxp, hPy0, hPyp⟩
  · rw [hPInf] at h; exact absurd h (by simp)
  obtain ⟨cP, cA, cB⟩ := c
  dsimp only at hc hPxp hPyp hti hlt ⊢
  subst hc
  cases Qopt with
  | none =>
    by_cases hysum : mod (P.Y + P.Y) ((p : ℕ) : Int) = 0
    · exfalso
      simp only [thirdIntersection, Curve.double, Curve.add, hPInf, Bool.false_eq_true,
        if_false, if_pos rfl, hysum, if_pos, infPt] at hti
      obtain ⟨h1, -⟩ := Prod.ext_iff.mp (Option.some.inj hti)
      dsimp only at h1
      rw [← h1] at hR
      simp at hR
    · have hy0 : P.Y ≠ 0 := by
        intro h
        apply hysum
        rw [h]
        simp [mod]
      have hden : mulM 2 P.Y ((p : ℕ) : Int) ≠ 0 :=
        doubling_den_ne_zero hodd hPy0 hPyp hy0
      obtain ⟨i, hi, -, -, -⟩ :=
        invM_some ((mod_nonneg' hpPos _).lt_of_ne (Ne.symm hden)) (mulM_lt hpPos 2 P.Y)
      have hi' : invM (mulM 2 P.Y ((p : ℕ) : Int)) ((p : ℕ) : Int) = some i := hi
      simp only [thirdIntersection, Curve.double, Curve.add, hPInf, Bool.false_eq_true,
        if_false, if_pos rfl, hysum, hy0, hi'] at hti
      obtain ⟨hRe, -⟩ := Prod.ext_iff.mp (Option.some.inj hti)
      dsimp only at hRe
      simp only [lineThrough, tangentLine, hy0, if_false, hi'] at hlt
      obtain rfl := Option.some.inj hlt
      rw [← hRe]
      refine ⟨rfl, ?_, ?_⟩
      · simp only [Curve.neg, Bool.false_eq_true, if_false]
        exact (lineEq_core hodd _ P.X P.Y _).1
      · exact (lineEq_core hodd _ P.X P.Y _).2
  | some Q =>
    obtain ⟨hQInf, hQred, hQon, hxne⟩ := hQ Q rfl
    rcases hQred with h | ⟨-, hQx0, hQxp, hQy0, hQyp⟩
    · rw [hQInf] at h; exact absurd h (by simp)
    have hden : subM Q.X P.X ((p : ℕ) : Int) ≠ 0 :=
      subM_ne_zero hpPos hPx0 hPxp hQx0 hQxp hxne
    obtain ⟨i, hi, -, -, -⟩ :=
      invM_some ((mod_nonneg' hpPos _).lt_of_ne (Ne.symm hden)) (mod_lt' hpPos _)
    have hi' : invM (subM Q.X P.X ((p : ℕ) : Int)) ((p : ℕ) : Int) = some i := hi
    simp only [thirdIntersection, Curve.add, hPInf, hQInf, Bool.false_eq_true, if_false,
      hxne, hi', false_and, and_false] at hti
    obtain ⟨hRe, -⟩ := Prod.ext_iff.mp (Option.some.inj hti)
    dsimp only at hRe
    simp only [lineThrough, hxne, false_and, and_false, if_false, hi'] at hlt
    obtain rfl := Option.some.inj hlt
    rw [← hRe]
    refine ⟨rfl, ?_, ?_⟩
    · simp only [Curve.neg, Bool.false_eq_true, if_false]
      exact (lineEq_core hodd _ P.X P.Y _).1
    · exact (lineEq_core hodd _ P.X P.Y _).2

/-- C10 witness: the secant through `(0,1)` and `(5,4)` on `y^2 = x^3 + 1`
over `F_11` gives `R = (9,9)`; `neg(R) = (9,2)` lies on the line
`y = 5x + 1` while `R` does not. -/
theorem c10_witness :
    (Line.mk false 5 1 0).Vertical = false ∧
    mod ((Line.mk false 5 1 0).M *
        ((Curve.mk 11 0 1).neg (Point.mk 9 9 false)).X + (Line.mk false 5 1 0).C)
      (Curve.mk 11 0 1).P = ((Curve.mk 11 0 1).neg (Point.mk 9 9 false)).Y ∧
    (mod ((Line.mk false 5 1 0).M * (Point.mk 9 9 false).X + (Line.mk false 5 1 0).C)
        (Curve.mk 11 0 1).P = (Point.mk 9 9 false).Y ↔ (Point.mk 9 9 false).Y = 0) := by
  haveI : Fact (Nat.Prime 11) := ⟨by norm_num⟩
  refine c10_negR_on_line (p := 11) rfl (Curve.mk 11 0 1) rfl (Point.mk 0 1 false)
    (some (Point.mk 5 4 false)) rfl (Or.inr (by norm_num)) (by decide) ?_
    (Point.mk 9 9 false) [Point.mk 0 1 false, Point.mk 5 4 false, Point.mk 9 9 false]
    (Line.mk false 5 1 0) (by decide) rfl (by decide)
  intro Q hQeq
  obtain rfl : Point.mk 5 4 false = Q := Option.some.inj hQeq
  exact ⟨rfl, Or.inr (by norm_num), by decide, by decide⟩

/-- `countLegendre(c)`: `1` (the point at infinity) plus, for each
`x ∈ [0, p)`, `1` if `x^3 + Ax + B ≡ 0`, `2` if it is a nonzero residue,
`0` otherwise — the source's Legendre scan. -/
def countLegendre (c : Curve) : Int :=
  1 + ((List.range c.P.toNat).map (fun (x : Nat) =>
    let t := addM (addM (mulM (x : Int) (mulM (x : Int) (x : Int) c.P) c.P)
      (mulM c.A (x : Int) c.P) c.P) c.B c.P
    let lg := legendre t c.P
    if lg = 0 then 1 else if lg = 1 then 2 else (0 : Int))).sum

/-- The number of affine lattice points `(x, y) ∈ [0,p)²` with
`y² ≡ x³ + Ax + B (mod p)` — the claim's right-hand side. -/
def affinePointCount (c : Curve) : Nat :=
  (((Finset.range c.P.toNat) ×ˢ (Finset.range c.P.toNat)).filter fun q =>
    ((q.2 : Int) ^ 2) % c.P = ((q.1 : Int) ^ 3 + c.A * (q.1 : Int) + c.B) % c.P).card

section Counting

variable {p : ℕ}

lemma list_range_map_sum (n : ℕ) (f : ℕ → Int) :
    ((List.range n).map f).sum = ∑ x ∈ Finset.range n, f x := by
  induction n with
  | zero => simp
  | succ n ih =>
    rw [List.range_succ, Finset.sum_range_succ, List.map_append, List.sum_append, ih]
    simp

/-- Number of square roots of `T` in `ZMod p` for an odd prime `p`. -/
lemma card_sq_roots [hp : Fact p.Prime] (hodd : p % 2 = 1) (T : ZMod p) :
    (Finset.univ.filter (fun Y : ZMod p => Y ^ 2 = T)).card
      = if T = 0 then 1 else if IsSquare T then 2 else 0 := by
  by_cases hT0 : T = 0
  · rw [if_pos hT0]
    have : (Finset.univ.filter (fun Y : ZMod p => Y ^ 2 = T)) = {0} := by
      ext Y
      simp only [Finset.mem_filter, Finset.mem_univ, true_and, Finset.mem_singleton, hT0]
      rw [pow_eq_zero_iff (by norm_num : 2 ≠ 0)]
    rw [this, Finset.card_singleton]
  · rw [if_neg hT0]
    by_cases hsq : IsSquare T
    · rw [if_pos hsq]
      obtain ⟨r, hr⟩ := hsq
      have hr0 : r ≠ 0 := by
        intro h
        rw [h, mul_zero] at hr
        exact hT0 hr
      have hrne : r ≠ -r := by
        intro h
        have h2r : (2 : ZMod p) * r = 0 := by linear_combination h
        rcases mul_eq_zero.mp h2r with h2 | h0
        · exact two_ne_zero_zmod hodd h2
        · exact hr0 h0
      have : (Finset.univ.filter (fun Y : ZMod p => Y ^ 2 = T)) = {r, -r} := by
        ext Y
        simp only [Finset.mem_filter, Finset.mem_univ, true_and, Finset.mem_insert,
          Finset.mem_singleton]
        constructor
        · intro h
          have hfac : (Y - r) * (Y + r) = 0 := by
            rw [hr] at h
            linear_combination h
          rcases mul_eq_zero.mp hfac with h | h
          · left; linear_combination h
          · right; linear_combination h
        · rintro (rfl | rfl)
          · rw [hr]; ring
          · rw [hr]; ring
      rw [this, Finset.card_pair hrne]
    · rw [if_neg hsq]
      have : (Finset.univ.filter (fun Y : ZMod p => Y ^ 2 = T)) = ∅ := by
        ext Y
        simp only [Finset.mem_filter, Finset.mem_univ, true_and, Finset.not_mem_empty,
          iff_false]
        intro h
        exact hsq ⟨Y, by rw [← h]; ring⟩
      rw [this, Finset.card_empty]

/-- Counting a decidable predicate over `[0, p)` equals counting the
corresponding predicate over `ZMod p`. -/
lemma card_filter_range_cast [NeZero p] (P1 : ℕ → Prop) [DecidablePred P1]
    (P2 : ZMod p → Prop) [DecidablePred P2]
    (h : ∀ y, y < p → (P1 y ↔ P2 ((y : ℕ) : ZMod p))) :
    ((Finset.range p).filter P1).card = (Finset.univ.filter P2).card := by
  refine Finset.card_bij' (fun y _ => ((y : ℕ) : ZMod p)) (fun Y _ => Y.val) ?_ ?_ ?_ ?_
  · intro a ha
    rw [Finset.mem_filter] at ha ⊢
    exact ⟨Finset.mem_univ _, (h a (Finset.mem_range.mp ha.1)).mp ha.2⟩
  · intro Y hY
    rw [Finset.mem_filter] at hY ⊢
    refine ⟨Finset.mem_range.mpr (ZMod.val_lt Y), ?_⟩
    rw [h _ (ZMod.val_lt Y), ZMod.natCast_val, ZMod.cast_id]
    exact hY.2
  · intro a ha
    exact ZMod.val_cast_of_lt (Finset.mem_range.mp (Finset.mem_filter.mp ha).1)
  · intro Y hY
    dsimp only
    rw [ZMod.natCast_val, ZMod.cast_id]

/-- The per-`x` contribution of the Legendre scan equals the number of
`y ∈ [0,p)` with `y² ≡ x³ + Ax + B`. -/
lemma contrib_eq_card [hp : Fact p.Prime] (hodd : p % 2 = 1) (cA cB : Int) (x : ℕ) :
    (if legendre (addM (addM (mulM (x : Int) (mulM (x : Int) (x : Int) (p : Int)) (p : Int))
        (mulM cA (x : Int) (p : Int)) (p : Int)) cB (p : Int)) (p : Int) = 0 then 1
      else if legendre (addM (addM (mulM (x : Int) (mulM (x : Int) (x : Int) (p : Int)) (p : Int))
        (mulM cA (x : Int) (p : Int)) (p : Int)) cB (p : Int)) (p : Int) = 1 then 2 else (0 : Int))
    = (((Finset.range p).filter (fun (y : ℕ) =>
        ((y : Int) ^ 2) % (p : Int) = ((x : Int) ^ 3 + cA * (x : Int) + cB) % (p : Int))).card
      : Int) := by
  have hpPos : 0 < p := hp.out.pos
  set t : Int := addM (addM (mulM (x : Int) (mulM (x : Int) (x : Int) (p : Int)) (p : Int))
    (mulM cA (x : Int) (p : Int)) (p : Int)) cB (p : Int) with ht
  have hTval : ((t : Int) : ZMod p) = (((x : ℕ) : ZMod p)) ^ 3 + ((cA : ZMod p)) * ((x : ℕ) : ZMod p) + ((cB : ZMod p)) := by
    rw [ht]
    simp only [intCast_addM, intCast_mulM]
    push_cast
    ring
  have hcards : ((Finset.range p).filter (fun (y : ℕ) =>
      ((y : Int) ^ 2) % (p : Int) = ((x : Int) ^ 3 + cA * (x : Int) + cB) % (p : Int))).card
      = (Finset.univ.filter (fun Y : ZMod p => Y ^ 2 = ((t : Int) : ZMod p))).card := by
    haveI : NeZero p := ⟨hpPos.ne'⟩
    refine card_filter_range_cast _ _ (fun y hy => ?_)
    rw [show (((y : Int) ^ 2) % (p : Int) = ((x : Int) ^ 3 + cA * (x : Int) + cB) % (p : Int))
        ↔ (((y : Int) ^ 2 : Int) : ZMod p) = (((x : Int) ^ 3 + cA * (x : Int) + cB : Int) : ZMod p)
      from (ZMod.intCast_eq_intCast_iff' _ _ _).symm]
    rw [hTval]
    push_cast
    exact Iff.rfl
  rw [hcards, card_sq_roots hodd]
  by_cases hT0 : ((t : Int) : ZMod p) = 0
  · have hleg : legendre t (p : Int) = 0 := (legendre_eq_zero_iff hodd t).mpr hT0
    rw [hleg, if_pos hT0]
    norm_num
  · have htne : ((t : Int) : ZMod p) ≠ 0 := hT0
    by_cases hsq : IsSquare (((t : Int) : ZMod p))
    · have hleg : legendre t (p : Int) = 1 := legendre_eq_one_of_isSquare hodd htne hsq
      rw [hleg, if_neg hT0, if_pos hsq]
      norm_num
    · have hleg : legendre t (p : Int) = -1 :=
        legendre_eq_neg_one_of_not_isSquare hodd htne hsq
      rw [hleg, if_neg hT0, if_neg hsq]
      norm_num

end Counting

/-- C6: for an odd prime `p > 3`, `countLegendre` computes the exact
group order: `1` plus the number of lattice points `(x, y) ∈ [0,p)²`
with `y² ≡ x³ + Ax + B (mod p)`. -/
theorem c6_countLegendre {p : ℕ} [hp : Fact p.Prime] (hodd : p % 2 = 1) (h3 : 3 < p)
    (c : Curve) (hc : c.P = (p : Int)) :
    countLegendre c = 1 + (affinePointCount c : Int) := by
  obtain ⟨cP, cA, cB⟩ := c
  dsimp only at hc
  subst hc
  unfold countLegendre affinePointCount
  dsimp only
  rw [Int.toNat_natCast, list_range_map_sum]
  congr 1
  rw [show (((Finset.range p) ×ˢ (Finset.range p)).filter fun q =>
        ((q.2 : Int) ^ 2) % ((p : ℕ) : Int) = ((q.1 : Int) ^ 3 + cA * (q.1 : Int) + cB) % ((p : ℕ) : Int)).card
      = ∑ x ∈ Finset.range p, ((Finset.range p).filter (fun (y : ℕ) =>
        ((y : Int) ^ 2) % ((p : ℕ) : Int) = ((x : Int) ^ 3 + cA * (x : Int) + cB) % ((p : ℕ) : Int))).card
    from ?_]
  · push_cast
    exact Finset.sum_congr rfl (fun x _ => contrib_eq_card hodd cA cB x)
  · rw [Finset.card_filter, Finset.sum_product]
    exact Finset.sum_congr rfl (fun x _ => (Finset.card_filter _ _).symm)

/-- C6 witness: on `y² = x³ + 1` over `F_11` the scan equals `1` plus the
number of affine points, which is `11`, so `countLegendre` returns `12`. -/
theorem c6_witness :
    countLegendre (Curve.mk 11 0 1) = 1 + (affinePointCount (Curve.mk 11 0 1) : Int) ∧
    countLegendre (Curve.mk 11 0 1) = 12 := by
  haveI : Fact (Nat.Prime 11) := ⟨by norm_num⟩
  have h := c6_countLegendre (p := 11) rfl (by norm_num) (Curve.mk 11 0 1) rfl
  exact ⟨h, by rw [h]; decide⟩

section TSFactor

lemma factor2Aux_spec : ∀ fuel n, n ≤ fuel → n ≠ 0 →
    (factor2Aux fuel n).1 % 2 = 1 ∧ n = (factor2Aux fuel n).1 * 2 ^ (factor2Aux fuel n).2 ∧
      (factor2Aux fuel n).1 ≠ 0 := by
  intro fuel
  induction fuel with
  | zero => intro n hle hne; omega
  | succ fuel ih =>
    intro n hle hne
    by_cases h : n ≠ 0 ∧ n % 2 = 0
    · have hhalf : n / 2 ≤ fuel := by omega
      have hhalf0 : n / 2 ≠ 0 := by omega
      obtain ⟨h1, h2, h3⟩ := ih (n / 2) hhalf hhalf0
      simp only [factor2Aux]
      rw [if_pos h]
      refine ⟨h1, ?_, h3⟩
      rw [pow_succ, ← mul_assoc, ← h2]
      omega
    · have h' : n % 2 = 1 := by
        rcases Nat.mod_two_eq_zero_or_one n with hh | hh
        · exact absurd ⟨hne, hh⟩ h
        · exact hh
      simp only [factor2Aux]
      rw [if_neg h]
      exact ⟨h', by simp, hne⟩

lemma factor2_spec (n : ℕ) (hn : n ≠ 0) :
    (factor2 n).1 % 2 = 1 ∧ n = (factor2 n).1 * 2 ^ (factor2 n).2 ∧ (factor2 n).1 ≠ 0 :=
  factor2Aux_spec n n le_rfl hn

variable {p : ℕ}

lemma sqIter_cast : ∀ (k : Nat) (b : Int),
    ((sqIter (p : Int) b k : Int) : ZMod p) = ((b : ZMod p)) ^ (2 ^ k) := by
  intro k
  induction k with
  | zero => intro b; simp [sqIter]
  | succ k ih =>
    intro b
    rw [sqIter, ih, intCast_mulM]
    rw [pow_succ', pow_mul]
    ring

lemma sqIter_bounds (hpPos : 0 < p) : ∀ (k : Nat) (b : Int), 0 ≤ b → b < (p : Int) →
    0 ≤ sqIter (p : Int) b k ∧ sqIter (p : Int) b k < (p : Int) := by
  intro k
  induction k with
  | zero => intro b h0 h1; exact ⟨h0, h1⟩
  | succ k ih =>
    intro b h0 h1
    rw [sqIter]
    exact ih _ (mod_nonneg' hpPos _) (mod_lt' hpPos _)

end TSFactor

section FindZ

variable {p : ℕ} [hp : Fact p.Prime]

/-- Reading off `legendre = -1`: nonzero residue whose Euler power is `-1`. -/
lemma legendre_eq_neg_one_pow (hodd : p % 2 = 1) {z : Int}
    (hleg : legendre z (p : Int) = -1) :
    ((z : ZMod p)) ≠ 0 ∧ ((z : ZMod p)) ^ (p / 2) = -1 := by
  have hpPos : 0 < p := hp.out.pos
  have h2p : 2 < p := two_lt_p hodd
  by_cases hA : mod z (p : Int) = 0
  · exfalso
    simp only [legendre, hA, if_pos] at hleg
    exact absurd hleg (by norm_num)
  have hzne : ((z : ZMod p)) ≠ 0 := by
    intro h0
    apply hA
    apply (intCast_eq_zero_iff hpPos (mod_nonneg' hpPos z) (mod_lt' hpPos z)).mp
    rw [intCast_mod_eq]; exact h0
  refine ⟨hzne, ?_⟩
  set v := powM (mod z (p : Int)) (((p : Int) - 1) / 2).toNat (p : Int) with hv
  have hv1 : v ≠ 1 := by
    intro h1
    simp only [legendre, hA, if_neg, ← hv, h1, if_pos] at hleg
    exact absurd hleg (by norm_num)
  have hvcast : ((v : Int) : ZMod p) = ((z : ZMod p)) ^ (p / 2) := by
    rw [hv, legendre_powM_cast hodd]
  have hsq : (((z : ZMod p)) ^ (p / 2)) * (((z : ZMod p)) ^ (p / 2)) = 1 := by
    rw [← pow_add]
    have h2 : p / 2 + p / 2 = p - 1 := by omega
    rw [h2]
    exact ZMod.pow_card_sub_one_eq_one hzne
  rcases mul_self_eq_one_iff.mp hsq with h | h
  · exfalso
    apply hv1
    refine eq_of_intCast_eq hpPos (mod_nonneg' hpPos _) (mod_lt' hpPos _)
      (by norm_num) (by exact_mod_cast h2p.trans' (by norm_num)) ?_
    rw [hvcast, h]
    norm_num
  · exact h

/-- The scan succeeds as soon as a witness lies within the fuel window. -/
lemma findZ_some_of_witness : ∀ (fuel : Nat) (z w : Int), z ≤ w → w < z + fuel →
    legendre w (p : Int) = -1 →
    ∃ z', findZ (p : Int) fuel z = some z' ∧ legendre z' (p : Int) = -1 := by
  intro fuel
  induction fuel with
  | zero => intro z w h1 h2 _; omega
  | succ fuel ih =>
    intro z w h1 h2 hw
    by_cases hz : legendre z (p : Int) = -1
    · exact ⟨z, by rw [findZ, if_pos hz], hz⟩
    · have hzw : z ≠ w := fun h => hz (h ▸ hw)
      obtain ⟨z', h1', h2'⟩ := ih (z + 1) w (by omega) (by push_cast; omega) hw
      exact ⟨z', by rw [findZ, if_neg hz]; exact h1', h2'⟩

/-- Over an odd prime the non-residue scan starting at `2` with fuel `p`
finds a non-residue. -/
lemma findZ_succeeds (hodd : p % 2 = 1) :
    ∃ z, findZ (p : Int) ((p : Int)).toNat 2 = some z ∧ legendre z (p : Int) = -1 := by
  have hpPos : 0 < p := hp.out.pos
  have h2p : 2 < p := two_lt_p hodd
  have hchar : ringChar (ZMod p) ≠ 2 := by
    rw [ZMod.ringChar_zmod_n]
    omega
  obtain ⟨b, hb⟩ := FiniteField.exists_nonsquare hchar
  have hb0 : b ≠ 0 := fun h => hb ⟨0, by rw [h, mul_zero]⟩
  have hb1 : b ≠ 1 := fun h => hb ⟨1, by rw [h, mul_one]⟩
  haveI : NeZero p := ⟨hpPos.ne'⟩
  have hvne : b.val ≠ 0 := fun h => hb0 (by rwa [← ZMod.val_eq_zero])
  have hvne1 : b.val ≠ 1 := by
    intro h
    apply hb1
    have := congrArg (fun n : ℕ => ((n : ℕ) : ZMod p)) h
    simpa [ZMod.natCast_val, ZMod.cast_id] using this
  have hcastb : (((b.val : Int)) : ZMod p) = b := by
    push_cast
    rw [ZMod.natCast_val, ZMod.cast_id]
  have hlegb : legendre ((b.val : Int)) (p : Int) = -1 := by
    apply legendre_eq_neg_one_of_not_isSquare hodd
    · rw [hcastb]; exact hb0
    · rw [hcastb]; exact hb
  refine findZ_some_of_witness ((p : Int)).toNat 2 (b.val : Int) ?_ ?_ hlegb
  · omega
  · have := ZMod.val_lt b
    rw [Int.toNat_natCast]
    push_cast
    omega

end FindZ

section TSSearch

variable {p : ℕ} [hp : Fact p.Prime]

lemma tsSearchAux_spec (T : ZMod p) (m : Nat) (hm2 : 2 ≤ m)
    (hwit : T ^ (2 ^ (m - 1)) = 1) :
    ∀ fuel i b, fuel = m - i → 1 ≤ i → i ≤ m →
      0 ≤ b → b < (p : Int) → ((b : ZMod p)) = T ^ (2 ^ i) →
      (∀ j, 1 ≤ j → j < i → T ^ (2 ^ j) ≠ 1) →
      1 ≤ tsSearchAux (p : Int) m fuel i b ∧ tsSearchAux (p : Int) m fuel i b < m ∧
        T ^ (2 ^ tsSearchAux (p : Int) m fuel i b) = 1 ∧
        (∀ j, 1 ≤ j → j < tsSearchAux (p : Int) m fuel i b → T ^ (2 ^ j) ≠ 1) := by
  have hpPos : 0 < p := hp.out.pos
  have hp1 : 1 < p := hp.out.one_lt
  intro fuel
  induction fuel with
  | zero =>
    intro i b hfuel hi1 him hb0 hbp hbcast hmin
    exfalso
    have hieq : i = m := by omega
    exact hmin (m - 1) (by omega) (by omega) hwit
  | succ fuel ih =>
    intro i b hfuel hi1 him hb0 hbp hbcast hmin
    by_cases hlt : i < m
    · rw [tsSearchAux, if_pos hlt]
      by_cases hb1 : b = 1
      · rw [if_pos hb1]
        refine ⟨hi1, hlt, ?_, hmin⟩
        rw [← hbcast, hb1]
        norm_num
      · rw [if_neg hb1]
        have hTine : T ^ (2 ^ i) ≠ 1 := by
          rw [← hbcast]
          exact fun h => hb1 (eq_of_intCast_eq hpPos hb0 hbp (by norm_num)
            (by exact_mod_cast hp1) (by rw [h]; norm_num))
        refine ih (i + 1) (mulM b b (p : Int)) (by omega) (by omega) (by omega)
          (mod_nonneg' hpPos _) (mod_lt' hpPos _) ?_ ?_
        · rw [intCast_mulM, hbcast, ← pow_add]
          congr 1
          omega
        · intro j hj1 hji
          rcases Nat.lt_or_ge j i with h | h
          · exact hmin j hj1 h
          · have : j = i := by omega
            rw [this]
            exact hTine
    · exfalso
      have hieq : i = m := by omega
      exact hmin (m - 1) (by omega) (by omega) hwit

lemma tsSearch_spec (T : ZMod p) (m : Nat) (hm2 : 2 ≤ m)
    (hwit : T ^ (2 ^ (m - 1)) = 1) (b : Int) (hb0 : 0 ≤ b) (hbp : b < (p : Int))
    (hbcast : ((b : ZMod p)) = T ^ 2) :
    1 ≤ tsSearch (p : Int) m 1 b ∧ tsSearch (p : Int) m 1 b < m ∧
      T ^ (2 ^ tsSearch (p : Int) m 1 b) = 1 ∧
      (∀ j, 1 ≤ j → j < tsSearch (p : Int) m 1 b → T ^ (2 ^ j) ≠ 1) := by
  refine tsSearchAux_spec T m hm2 hwit (m - 1) 1 b rfl le_rfl (by omega) hb0 hbp ?_
    (by omega)
  rw [hbcast, pow_one]

end TSSearch

section TSLoop

variable {p : ℕ} [hp : Fact p.Prime]

lemma pow_two_pow_mul (C : ZMod p) (a b : Nat) : (C ^ (2 ^ a)) ^ (2 ^ b) = C ^ (2 ^ (a + b)) := by
  rw [← pow_mul, ← pow_add]

/-- Correctness of the Tonelli–Shanks descent: under the loop invariants
(`x² = A·t`, `ord(t) | 2^(m-1)`, `c^(2^(m-1)) = -1`) and with fuel at
least `m`, the loop returns a canonical square root of `A`. -/
lemma tsLoop_ok (hodd : p % 2 = 1) (A : ZMod p) :
    ∀ m fuel (c x t : Int), m ≤ fuel → 1 ≤ m →
      0 ≤ c → c < (p : Int) → 0 ≤ x → x < (p : Int) → 0 ≤ t → t < (p : Int) →
      ((x : ZMod p)) ^ 2 = A * ((t : ZMod p)) →
      ((t : ZMod p)) ^ (2 ^ (m - 1)) = 1 →
      ((c : ZMod p)) ^ (2 ^ (m - 1)) = -1 →
      ∃ y, tsLoop (p : Int) fuel c x t m = .ok y ∧ 0 ≤ y ∧ y < (p : Int) ∧
        ((y : ZMod p)) ^ 2 = A := by
  have hpPos : 0 < p := hp.out.pos
  have hp1 : 1 < p := hp.out.one_lt
  intro m
  induction m using Nat.strong_induction_on with
  | _ m ih =>
    intro fuel c x t hfuel hm1 hc0 hcp hx0 hxp ht0 htp hx2 htord hcord
    obtain ⟨f, rfl⟩ : ∃ f, fuel = f + 1 := ⟨fuel - 1, by omega⟩
    by_cases ht1 : t = 1
    · refine ⟨x, ?_, hx0, hxp, ?_⟩
      · rw [tsLoop, if_pos ht1]
      · rw [hx2, ht1]
        norm_num
    · have hTne : ((t : ZMod p)) ≠ 1 := by
        intro h
        exact ht1 (eq_of_intCast_eq hpPos ht0 htp (by norm_num)
          (by exact_mod_cast hp1) (by rw [h]; norm_num))
      have hm2 : 2 ≤ m := by
        by_contra h
        have : m = 1 := by omega
        rw [this] at htord
        simp only [Nat.sub_self, pow_zero, pow_one] at htord
        exact hTne htord
      obtain ⟨hi1, him, hieq, hmin⟩ := tsSearch_spec ((t : ZMod p)) m hm2 htord
        (mulM t t (p : Int)) (mod_nonneg' hpPos _) (mod_lt' hpPos _)
        (by rw [intCast_mulM]; ring)
      set i := tsSearch (p : Int) m 1 (mulM t t (p : Int)) with hidef
      have hu : ((t : ZMod p)) ^ (2 ^ (i - 1)) = -1 := by
        have husq : (((t : ZMod p)) ^ (2 ^ (i - 1))) * (((t : ZMod p)) ^ (2 ^ (i - 1))) = 1 := by
          rw [← pow_add]
          rw [show 2 ^ (i - 1) + 2 ^ (i - 1) = 2 ^ i from by
            rw [← two_mul, ← pow_succ']
            congr 1
            omega]
          exact hieq
        rcases mul_self_eq_one_iff.mp husq with h | h
        · exfalso
          rcases Nat.lt_or_ge i 2 with h2 | h2
          · have : i = 1 := by omega
            rw [this] at h
            simp only [Nat.sub_self, pow_zero, pow_one] at h
            exact hTne h
          · exact hmin (i - 1) (by omega) (by omega) h
        · exact h
      set b := sqIter (p : Int) c (m - i - 1) with hbdef
      have hbb := sqIter_bounds hpPos (m - i - 1) c hc0 hcp
      have hBcast : ((b : ZMod p)) = ((c : ZMod p)) ^ (2 ^ (m - i - 1)) := sqIter_cast _ c
      have hBBcast : ((mulM b b (p : Int) : Int) : ZMod p) = ((c : ZMod p)) ^ (2 ^ (m - i)) := by
        rw [intCast_mulM, hBcast, ← pow_add]
        congr 1
        rw [← two_mul, ← pow_succ']
        congr 1
        omega
      have hx2' : ((mulM x b (p : Int) : Int) : ZMod p) ^ 2
          = A * ((mulM t (mulM b b (p : Int)) (p : Int) : Int) : ZMod p) := by
        rw [intCast_mulM, intCast_mulM, hBBcast, hBcast, mul_pow, hx2]
        rw [show (((c : ZMod p)) ^ (2 ^ (m - i - 1))) ^ 2 = ((c : ZMod p)) ^ (2 ^ (m - i)) from by
          rw [← pow_mul, ← pow_succ, show m - i - 1 + 1 = m - i from by omega]]
        ring
      have htord' : ((mulM t (mulM b b (p : Int)) (p : Int) : Int) : ZMod p) ^ (2 ^ (i - 1)) = 1 := by
        rw [intCast_mulM, hBBcast, mul_pow, hu, pow_two_pow_mul]
        rw [show m - i + (i - 1) = m - 1 from by omega, hcord]
        ring
      have hcord' : ((mulM b b (p : Int) : Int) : ZMod p) ^ (2 ^ (i - 1)) = -1 := by
        rw [hBBcast, pow_two_pow_mul]
        rw [show m - i + (i - 1) = m - 1 from by omega]
        exact hcord
      obtain ⟨y, hy1, hy2, hy3, hy4⟩ := ih i him f (mulM b b (p : Int)) (mulM x b (p : Int))
        (mulM t (mulM b b (p : Int)) (p : Int)) (by omega) hi1
        (mod_nonneg' hpPos _) (mod_lt' hpPos _) (mod_nonneg' hpPos _) (mod_lt' hpPos _)
        (mod_nonneg' hpPos _) (mod_lt' hpPos _) hx2' htord' hcord'
      refine ⟨y, ?_, hy2, hy3, hy4⟩
      rw [tsLoop, if_neg ht1]
      simp only [← hidef, ← hbdef]
      rw [if_neg (by omega : ¬i = m)]
      exact hy1

end TSLoop

/-- C5: for an odd prime `p` and `legendre(a, p) = 1`, `sqrtModP` returns
without error a canonical `y ∈ [0, p)` with `y² ≡ a (mod p)`, on both the
`p ≡ 3 (mod 4)` fast path and the general Tonelli–Shanks descent. -/
theorem c5_sqrtModP_correct {p : ℕ} [hp : Fact p.Prime] (hodd : p % 2 = 1) (a : Int)
    (hleg : legendre a (p : Int) = 1) :
    ∃ y, sqrtModP a (p : Int) = Except.ok y ∧ 0 ≤ y ∧ y < (p : Int) ∧
      y ^ 2 % (p : Int) = a % (p : Int) := by
  have hpPos : 0 < p := hp.out.pos
  have h2p : 2 < p := two_lt_p hodd
  obtain ⟨hAne, hpow⟩ := (legendre_eq_one_iff hodd a).mp hleg
  have hA0 : mod a (p : Int) ≠ 0 := by
    intro h
    apply hAne
    rw [← intCast_mod_eq, h]
    simp
  have hlegA : ¬(legendre (mod a (p : Int)) (p : Int) ≠ 1) := by
    rw [legendre_mod, hleg]
    simp
  have hpowA : ((mod a (p : Int) : Int) : ZMod p) = (a : ZMod p) := intCast_mod_eq a
  by_cases hfast : mod ((p : Int) - 3) 4 = 0
  · refine ⟨powM (mod a (p : Int)) ((((p : Int)) + 1) / 4).toNat (p : Int), ?_,
      mod_nonneg' hpPos _, mod_lt' hpPos _, ?_⟩
    · simp only [sqrtModP, if_neg hA0, if_neg hlegA, if_pos hfast]
    · have hp4 : p % 4 = 3 := by
        unfold mod at hfast
        omega
      have he : ((((p : Int)) + 1) / 4).toNat * 2 = p / 2 + 1 := by omega
      apply (ZMod.intCast_eq_intCast_iff' _ _ _).mp
      push_cast
      rw [intCast_powM, hpowA, ← pow_mul, he, pow_succ, hpow, one_mul]
  · have hp4 : p % 4 = 1 := by
      unfold mod at hfast
      omega
    have hpn : (((p : Int)) - 1).toNat = p - 1 := by omega
    obtain ⟨hqodd, hfact, hqne⟩ := factor2_spec (p - 1) (by omega)
    have hs1 : 1 ≤ (factor2 (p - 1)).2 := by
      rcases Nat.eq_zero_or_pos (factor2 (p - 1)).2 with h0 | h
      · rw [h0, pow_zero, mul_one] at hfact
        omega
      · exact h
    set q := (factor2 (p - 1)).1 with hqdef
    set s := (factor2 (p - 1)).2 with hsdef
    obtain ⟨z, hfz, hlegz⟩ := findZ_succeeds hodd
    obtain ⟨hzne, hzpow⟩ := legendre_eq_neg_one_pow hodd hlegz
    have hhalf : q * 2 ^ (s - 1) = p / 2 := by
      have h2s : (2 : ℕ) ^ s = 2 ^ (s - 1) * 2 := by
        rw [← pow_succ]
        congr 1
        omega
      rw [h2s, ← mul_assoc] at hfact
      omega
    have hc0ord : ((powM z q (p : Int) : Int) : ZMod p) ^ (2 ^ (s - 1)) = -1 := by
      rw [intCast_powM, ← pow_mul, hhalf, hzpow]
    have ht0ord : ((powM (mod a (p : Int)) q (p : Int) : Int) : ZMod p) ^ (2 ^ (s - 1)) = 1 := by
      rw [intCast_powM, hpowA, ← pow_mul, hhalf, hpow]
    have hx0sq : ((powM (mod a (p : Int)) ((q + 1) / 2) (p : Int) : Int) : ZMod p) ^ 2
        = (a : ZMod p) * ((powM (mod a (p : Int)) q (p : Int) : Int) : ZMod p) := by
      rw [intCast_powM, intCast_powM, hpowA, ← pow_mul,
        show (q + 1) / 2 * 2 = q + 1 from by omega, pow_succ]
      ring
    obtain ⟨y, hy1, hy2, hy3, hy4⟩ := tsLoop_ok hodd ((a : ZMod p)) s (s + 1)
      (powM z q (p : Int)) (powM (mod a (p : Int)) ((q + 1) / 2) (p : Int))
      (powM (mod a (p : Int)) q (p : Int)) (by omega) hs1
      (mod_nonneg' hpPos _) (mod_lt' hpPos _) (mod_nonneg' hpPos _) (mod_lt' hpPos _)
      (mod_nonneg' hpPos _) (mod_lt' hpPos _) hx0sq ht0ord hc0ord
    refine ⟨y, ?_, hy2, hy3, ?_⟩
    · simp only [sqrtModP, if_neg hA0, if_neg hlegA, if_neg hfast, hpn, hfz, ← hqdef, ← hsdef]
      exact hy1
    · apply (ZMod.intCast_eq_intCast_iff' _ _ _).mp
      push_cast
      exact hy4

/-- C5 witness: both paths at concrete inputs — `sqrtModP(2, 7)` (fast
path, `7 ≡ 3 (mod 4)`) and `sqrtModP(3, 13)` (general descent,
`13 ≡ 1 (mod 4)`) return canonical square roots. -/
theorem c5_witness :
    (∃ y, sqrtModP 2 7 = Except.ok y ∧ 0 ≤ y ∧ y < 7 ∧ y ^ 2 % 7 = 2 % 7) ∧
    (∃ y, sqrtModP 3 13 = Except.ok y ∧ 0 ≤ y ∧ y < 13 ∧ y ^ 2 % 13 = 3 % 13) := by
  haveI h7 : Fact (Nat.Prime 7) := ⟨by norm_num⟩
  haveI h13 : Fact (Nat.Prime 13) := ⟨by norm_num⟩
  constructor
  · have h := c5_sqrtModP_correct (p := 7) rfl 2 rfl
    push_cast at h
    exact h
  · have h := c5_sqrtModP_correct (p := 13) rfl 3 rfl
    push_cast at h
    exact h

/-- The short Weierstrass curve `y² = x³ + Ax + B` over `ZMod p`
corresponding to `Curve(p, A, B)`. -/
def WM (p : ℕ) (A B : Int) : WeierstrassCurve.Affine (ZMod p) :=
  { a₁ := 0, a₂ := 0, a₃ := 0, a₄ := ((A : ZMod p)), a₆ := ((B : ZMod p)) }

section WMBasic

variable {p : ℕ}

lemma WM_Δ (A B : Int) :
    (WM p A B).Δ = -16 * (4 * ((A : ZMod p)) ^ 3 + 27 * ((B : ZMod p)) ^ 2) := by
  simp only [WM, WeierstrassCurve.Δ, WeierstrassCurve.b₂, WeierstrassCurve.b₄,
    WeierstrassCurve.b₆, WeierstrassCurve.b₈]
  ring

lemma WM_equation_iff (A B : Int) (x y : ZMod p) :
    (WM p A B).Equation x y ↔ y ^ 2 = x ^ 3 + ((A : ZMod p)) * x + ((B : ZMod p)) := by
  rw [WeierstrassCurve.Affine.equation_iff]
  simp only [WM]
  constructor
  · intro h; linear_combination h
  · intro h; linear_combination h

lemma WM_negY (A B : Int) (x y : ZMod p) : (WM p A B).negY x y = -y := by
  simp only [WeierstrassCurve.Affine.negY, WM]
  ring

/-- The code's singularity test, read in `ZMod p`. -/
lemma delta_ne_of_isSingular_false [hp : Fact p.Prime] (hodd : p % 2 = 1) {cA cB : Int}
    (h : (Curve.mk (p : Int) cA cB).isSingular = false) : (WM p cA cB).Δ ≠ 0 := by
  have hpPos : 0 < p := hp.out.pos
  have hterm : addM (mulM 4 (mulM (mulM cA cA (p : Int)) cA (p : Int)) (p : Int))
      (mulM 27 (mulM cB cB (p : Int)) (p : Int)) (p : Int) ≠ 0 := by
    simp only [Curve.isSingular] at h
    exact of_decide_eq_false h
  have hcast : 4 * ((cA : ZMod p)) ^ 3 + 27 * ((cB : ZMod p)) ^ 2 ≠ 0 := by
    intro h0
    apply hterm
    apply (intCast_eq_zero_iff hpPos (mod_nonneg' hpPos _) (mod_lt' hpPos _)).mp
    simp only [intCast_mod_eq, intCast_addM, intCast_mulM, Int.cast_add, Int.cast_mul]
    push_cast
    linear_combination h0
  rw [WM_Δ]
  exact mul_ne_zero (by
    have h2 : ((2 : ZMod p)) ≠ 0 := two_ne_zero_zmod hodd
    have h16 : ((2 : ZMod p)) ^ 4 ≠ 0 := pow_ne_zero 4 h2
    intro h0
    apply h16
    have : (-16 : ZMod p) = -(2 ^ 4) := by norm_num
    rw [this] at h0
    exact neg_eq_zero.mp h0) hcast

end WMBasic

/-- The claim's validity condition for C7: the canonical identity, or an
affine point with reduced coordinates, lying on the curve. -/
def PtValid (p : ℕ) (cA cB : Int) (P : Point) : Prop :=
  (P = infPt ∨ (P.Inf = false ∧ 0 ≤ P.X ∧ P.X < (p : Int) ∧ 0 ≤ P.Y ∧ P.Y < (p : Int))) ∧
  (Curve.mk (p : Int) cA cB).on P = true

section ToM

variable {p : ℕ} [hp : Fact p.Prime]

/-- Transport a code point to a Mathlib nonsingular point. -/
def toM {A B : Int} (P : Point)
    (h : P.Inf = true ∨ (WM p A B).Nonsingular ((P.X : ZMod p)) ((P.Y : ZMod p))) :
    (WM p A B).Point :=
  if hInf : P.Inf then WeierstrassCurve.Affine.Point.zero
  else WeierstrassCurve.Affine.Point.some (h.resolve_left (by simp [hInf]))

lemma valid_or {cA cB : Int} (hΔ : (WM p cA cB).Δ ≠ 0) {P : Point}
    (h : PtValid p cA cB P) :
    P.Inf = true ∨ (WM p cA cB).Nonsingular ((P.X : ZMod p)) ((P.Y : ZMod p)) := by
  have hpPos : 0 < p := hp.out.pos
  by_cases hInf : P.Inf
  · exact Or.inl hInf
  · right
    have hInf' : P.Inf = false := by simpa using hInf
    have heq : (WM p cA cB).Equation ((P.X : ZMod p)) ((P.Y : ZMod p)) := by
      rw [WM_equation_iff]
      exact (on_cast hpPos rfl hInf').mp h.2
    exact WeierstrassCurve.Affine.nonsingular_of_Δ_ne_zero _ heq hΔ

lemma toM_of_inf {A B : Int} (P : Point) (hI : P.Inf = true)
    (h : P.Inf = true ∨ (WM p A B).Nonsingular ((P.X : ZMod p)) ((P.Y : ZMod p))) :
    toM P h = WeierstrassCurve.Affine.Point.zero := by
  simp [toM, hI]

lemma toM_of_affine {A B : Int} (P : Point) (hI : P.Inf = false)
    (h : P.Inf = true ∨ (WM p A B).Nonsingular ((P.X : ZMod p)) ((P.Y : ZMod p))) :
    toM P h = WeierstrassCurve.Affine.Point.some
      (h.resolve_left (by simp [hI])) := by
  simp [toM, hI]

lemma some_congr {W : WeierstrassCurve.Affine (ZMod p)} {x y x' y' : ZMod p}
    (hx : x = x') (hy : y = y') (h : W.Nonsingular x y) (h' : W.Nonsingular x' y') :
    WeierstrassCurve.Affine.Point.some h = WeierstrassCurve.Affine.Point.some h' := by
  subst hx
  subst hy
  rfl

/-- `toM` is injective on valid points. -/
lemma toM_inj {cA cB : Int} (hΔ : (WM p cA cB).Δ ≠ 0) {P Q : Point}
    (hP : PtValid p cA cB P) (hQ : PtValid p cA cB Q)
    (h : toM P (valid_or hΔ hP) = toM Q (valid_or hΔ hQ)) : P = Q := by
  have hpPos : 0 < p := hp.out.pos
  by_cases hPI : P.Inf
  · have hPinf : P = infPt := by
      rcases hP.1 with h1 | h1
      · exact h1
      · rw [h1.1] at hPI; exact absurd hPI (by simp)
    by_cases hQI : Q.Inf
    · have hQinf : Q = infPt := by
        rcases hQ.1 with h1 | h1
        · exact h1
        · rw [h1.1] at hQI; exact absurd hQI (by simp)
      rw [hPinf, hQinf]
    · exfalso
      rw [toM_of_inf P hPI, toM_of_affine Q (by simpa using hQI)] at h
      exact WeierstrassCurve.Affine.Point.some_ne_zero _ h.symm
  · by_cases hQI : Q.Inf
    · exfalso
      rw [toM_of_inf Q hQI, toM_of_affine P (by simpa using hPI)] at h
      exact WeierstrassCurve.Affine.Point.some_ne_zero _ h
    · rw [toM_of_affine P (by simpa using hPI), toM_of_affine Q (by simpa using hQI)] at h
      injection h with hx hy
      rcases hP.1 with h1 | h1
      · rw [h1] at hPI; exact absurd hPI (by simp [infPt])
      rcases hQ.1 with h2 | h2
      · rw [h2] at hQI; exact absurd hQI (by simp [infPt])
      obtain ⟨hPI', hPx0, hPxp, hPy0, hPyp⟩ := h1
      obtain ⟨hQI', hQx0, hQxp, hQy0, hQyp⟩ := h2
      have hX : P.X = Q.X := eq_of_intCast_eq hpPos hPx0 hPxp hQx0 hQxp hx
      have hY : P.Y = Q.Y := eq_of_intCast_eq hpPos hPy0 hPyp hQy0 hQyp hy
      obtain ⟨px, py, pi⟩ := P
      obtain ⟨qx, qy, qi⟩ := Q
      simp_all

end ToM

section AddHom

variable {p : ℕ} [hp : Fact p.Prime]

/-- `Curve.add` agrees with the Mathlib group law on valid points. -/
lemma add_hom (hodd : p % 2 = 1) {cA cB : Int} (hΔ : (WM p cA cB).Δ ≠ 0)
    (P Q : Point) (hP : PtValid p cA cB P) (hQ : PtValid p cA cB Q) :
    ∃ S, Curve.add (Curve.mk (p : Int) cA cB) P Q = some S ∧
      ∃ hS : PtValid p cA cB S,
        toM S (valid_or hΔ hS) = toM P (valid_or hΔ hP) + toM Q (valid_or hΔ hQ) := by
  have hpPos : 0 < p := hp.out.pos
  have hp1 : 1 < p := hp.out.one_lt
  by_cases hPI : P.Inf
  · refine ⟨Q, by simp only [Curve.add, hPI, if_pos], hQ, ?_⟩
    rw [toM_of_inf P hPI, WeierstrassCurve.Affine.Point.zero_def, zero_add]
  by_cases hQI : Q.Inf
  · refine ⟨P, ?_, hP, ?_⟩
    · simp only [Curve.add, hPI, hQI]
      simp
    · rw [toM_of_inf Q hQI, WeierstrassCurve.Affine.Point.zero_def, add_zero]
  have hPI' : P.Inf = false := by simpa using hPI
  have hQI' : Q.Inf = false := by simpa using hQI
  have hyy := fun hxeq => y_eq_or_neg (p := p) rfl hPI' hQI' hP.2 hQ.2 hxeq
  rcases hP with ⟨hPred, hPon⟩
  rcases hQ with ⟨hQred, hQon⟩
  rcases hPred with hPid | ⟨-, hPx0, hPxp, hPy0, hPyp⟩
  · rw [hPid] at hPI'; exact absurd hPI' (by simp [infPt])
  rcases hQred with hQid | ⟨-, hQx0, hQxp, hQy0, hQyp⟩
  · rw [hQid] at hQI'; exact absurd hQI' (by simp [infPt])
  -- the two Mathlib-side nonsingular points
  have hPns : (WM p cA cB).Nonsingular ((P.X : ZMod p)) ((P.Y : ZMod p)) :=
    WeierstrassCurve.Affine.nonsingular_of_Δ_ne_zero _
      ((WM_equation_iff cA cB _ _).mpr ((on_cast hpPos rfl hPI').mp hPon)) hΔ
  have hQns : (WM p cA cB).Nonsingular ((Q.X : ZMod p)) ((Q.Y : ZMod p)) :=
    WeierstrassCurve.Affine.nonsingular_of_Δ_ne_zero _
      ((WM_equation_iff cA cB _ _).mpr ((on_cast hpPos rfl hQI').mp hQon)) hΔ
  by_cases hxeq : P.X = Q.X
  · by_cases hysum : mod (P.Y + Q.Y) ((p : ℕ) : Int) = 0
    · -- P = -Q: result is the identity
      refine ⟨infPt, ?_, ⟨Or.inl rfl, by simp [Curve.on, infPt]⟩, ?_⟩
      · simp only [Curve.add, hPI', hQI', hxeq, hysum]
        simp
      · rw [toM_of_inf infPt rfl, toM_of_affine P hPI', toM_of_affine Q hQI',
          WeierstrassCurve.Affine.Point.zero_def]
        refine (WeierstrassCurve.Affine.Point.add_of_Y_eq ?_ ?_).symm
        · exact_mod_cast congrArg (fun z : Int => ((z : ZMod p))) hxeq
        · rw [WM_negY]
          have hcast0 : (((P.Y + Q.Y : Int)) : ZMod p) = 0 := by
            rw [← intCast_mod_eq, hysum]
            simp
          push_cast at hcast0
          linear_combination hcast0
    · -- doubling (y₂ = y₁ forced); y₁ ≠ 0
      have hy0 : P.Y ≠ 0 := by
        intro h0
        have hy0c : ((P.Y : ZMod p)) = 0 := by rw [h0]; simp
        have hQ0 : ((Q.Y : ZMod p)) = 0 := by
          rcases hyy hxeq with h | h
          · rw [hy0c] at h; linear_combination -h
          · rw [hy0c] at h; linear_combination h
        apply hysum
        apply (intCast_eq_zero_iff hpPos (mod_nonneg' hpPos _) (mod_lt' hpPos _)).mp
        rw [intCast_mod_eq]
        push_cast
        rw [hy0c, hQ0]
        ring
      have hyQc : ((P.Y : ZMod p)) = ((Q.Y : ZMod p)) := by
        rcases hyy hxeq with h | h
        · exact h
        · exfalso
          apply hysum
          apply (intCast_eq_zero_iff hpPos (mod_nonneg' hpPos _) (mod_lt' hpPos _)).mp
          rw [intCast_mod_eq]
          push_cast
          linear_combination h
      have hxQc : ((P.X : ZMod p)) = ((Q.X : ZMod p)) := by
        exact_mod_cast congrArg (fun z : Int => ((z : ZMod p))) hxeq
      have hyne : ((P.Y : ZMod p)) ≠ (WM p cA cB).negY ((Q.X : ZMod p)) ((Q.Y : ZMod p)) := by
        rw [WM_negY]
        intro h
        apply hysum
        apply (intCast_eq_zero_iff hpPos (mod_nonneg' hpPos _) (mod_lt' hpPos _)).mp
        rw [intCast_mod_eq]
        push_cast
        linear_combination h
      have hden : mulM 2 P.Y ((p : ℕ) : Int) ≠ 0 :=
        doubling_den_ne_zero hodd hPy0 hPyp hy0
      obtain ⟨i, hi, -, -, hinv⟩ :=
        invM_some ((mod_nonneg' hpPos _).lt_of_ne (Ne.symm hden)) (mulM_lt hpPos 2 P.Y)
      have hi' : invM (mulM 2 P.Y ((p : ℕ) : Int)) ((p : ℕ) : Int) = some i := hi
      have hic : ((i : Int) : ZMod p) = (2 * ((P.Y : ZMod p)))⁻¹ := by
        have h := cast_eq_inv_of_mulM_eq_one (p := p) hinv
        rw [intCast_mod_eq] at h
        push_cast at h
        exact h
      have hlamc : ((mulM (addM (mulM 3 (mulM P.X P.X ((p : ℕ) : Int)) ((p : ℕ) : Int)) cA
            ((p : ℕ) : Int)) i ((p : ℕ) : Int) : Int) : ZMod p)
          = (WM p cA cB).slope ((P.X : ZMod p)) ((Q.X : ZMod p)) ((P.Y : ZMod p))
            ((Q.Y : ZMod p)) := by
        rw [WeierstrassCurve.Affine.slope_of_Y_ne hxQc hyne, WM_negY]
        simp only [intCast_mulM, intCast_addM, WM]
        rw [hic]
        push_cast
        rw [show ((P.Y : ZMod p)) - -((P.Y : ZMod p)) = 2 * ((P.Y : ZMod p)) from by ring,
          div_eq_mul_inv]
        ring
      set num := addM (mulM 3 (mulM P.X P.X ((p : ℕ) : Int)) ((p : ℕ) : Int)) cA
        ((p : ℕ) : Int) with hnum
      set lam := mulM num i ((p : ℕ) : Int) with hlam
      set xr := subM (subM (mulM lam lam ((p : ℕ) : Int)) P.X ((p : ℕ) : Int)) Q.X
        ((p : ℕ) : Int) with hxr
      set yr := subM (mulM lam (subM P.X xr ((p : ℕ) : Int)) ((p : ℕ) : Int)) P.Y
        ((p : ℕ) : Int) with hyr
      have hxrc : ((xr : Int) : ZMod p)
          = (WM p cA cB).addX ((P.X : ZMod p)) ((Q.X : ZMod p))
            ((WM p cA cB).slope ((P.X : ZMod p)) ((Q.X : ZMod p)) ((P.Y : ZMod p))
              ((Q.Y : ZMod p))) := by
        rw [hxr]
        simp only [intCast_subM, intCast_mulM, hlamc, WeierstrassCurve.Affine.addX, WM]
        ring
      have hxrc' := hxrc
      simp only [WM] at hxrc'
      have hyrc : ((yr : Int) : ZMod p)
          = (WM p cA cB).addY ((P.X : ZMod p)) ((Q.X : ZMod p)) ((P.Y : ZMod p))
            ((WM p cA cB).slope ((P.X : ZMod p)) ((Q.X : ZMod p)) ((P.Y : ZMod p))
              ((Q.Y : ZMod p))) := by
        rw [hyr]
        simp only [intCast_subM, intCast_mulM, hlamc, WeierstrassCurve.Affine.addY,
          WeierstrassCurve.Affine.negAddY, WeierstrassCurve.Affine.negY, WM, ← hxrc']
        ring
      have hSval : PtValid p cA cB (Point.mk xr yr false) := by
        refine ⟨Or.inr ⟨rfl, ?_, ?_, ?_, ?_⟩, ?_⟩
        · rw [hxr]; exact mod_nonneg' hpPos _
        · rw [hxr]; exact mod_lt' hpPos _
        · rw [hyr]; exact mod_nonneg' hpPos _
        · rw [hyr]; exact mod_lt' hpPos _
        · apply (on_cast hpPos rfl rfl).mpr
          have heq := (WeierstrassCurve.Affine.nonsingular_add hPns hQns (fun _ => hyne)).1
          rw [WM_equation_iff] at heq
          dsimp only
          rw [hxrc, hyrc]
          exact heq
      refine ⟨Point.mk xr yr false, ?_, hSval, ?_⟩
      · simp only [Curve.add, hPI', hQI']
        rw [if_neg (by simp), if_neg (by simp), if_pos hxeq, if_neg hysum, if_neg hy0, hi']
      · rw [toM_of_affine _ rfl, toM_of_affine P hPI', toM_of_affine Q hQI',
          WeierstrassCurve.Affine.Point.add_of_imp (fun _ => hyne)]
        exact some_congr hxrc hyrc _ _
  · -- secant: distinct x-coordinates
    have hxnec : ((P.X : ZMod p)) ≠ ((Q.X : ZMod p)) :=
      intCast_ne_of_ne hpPos hPx0 hPxp hQx0 hQxp hxeq
    have hden : subM Q.X P.X ((p : ℕ) : Int) ≠ 0 :=
      subM_ne_zero hpPos hPx0 hPxp hQx0 hQxp hxeq
    obtain ⟨i, hi, -, -, hinv⟩ :=
      invM_some ((mod_nonneg' hpPos _).lt_of_ne (Ne.symm hden)) (mod_lt' hpPos _)
    have hi' : invM (subM Q.X P.X ((p : ℕ) : Int)) ((p : ℕ) : Int) = some i := hi
    have hic : ((i : Int) : ZMod p) = (((Q.X : ZMod p)) - ((P.X : ZMod p)))⁻¹ := by
      have h := cast_eq_inv_of_mulM_eq_one (p := p) hinv
      rw [intCast_mod_eq] at h
      push_cast at h
      exact h
    have hxy : ((P.X : ZMod p)) = ((Q.X : ZMod p)) →
        ((P.Y : ZMod p)) ≠ (WM p cA cB).negY ((Q.X : ZMod p)) ((Q.Y : ZMod p)) :=
      fun h => absurd h hxnec
    have hlamc : ((mulM (subM Q.Y P.Y ((p : ℕ) : Int)) i ((p : ℕ) : Int) : Int) : ZMod p)
        = (WM p cA cB).slope ((P.X : ZMod p)) ((Q.X : ZMod p)) ((P.Y : ZMod p))
          ((Q.Y : ZMod p)) := by
      rw [WeierstrassCurve.Affine.slope_of_X_ne hxnec]
      rw [intCast_mulM, intCast_subM, hic]
      rw [show ((P.Y : ZMod p)) - ((Q.Y : ZMod p))
          = -(((Q.Y : ZMod p)) - ((P.Y : ZMod p))) from by ring,
        show ((P.X : ZMod p)) - ((Q.X : ZMod p))
          = -(((Q.X : ZMod p)) - ((P.X : ZMod p))) from by ring,
        neg_div_neg_eq, div_eq_mul_inv]
    set num := subM Q.Y P.Y ((p : ℕ) : Int) with hnum
    set lam := mulM num i ((p : ℕ) : Int) with hlam
    set xr := subM (subM (mulM lam lam ((p : ℕ) : Int)) P.X ((p : ℕ) : Int)) Q.X
      ((p : ℕ) : Int) with hxr
    set yr := subM (mulM lam (subM P.X xr ((p : ℕ) : Int)) ((p : ℕ) : Int)) P.Y
      ((p : ℕ) : Int) with hyr
    have hxrc : ((xr : Int) : ZMod p)
        = (WM p cA cB).addX ((P.X : ZMod p)) ((Q.X : ZMod p))
          ((WM p cA cB).slope ((P.X : ZMod p)) ((Q.X : ZMod p)) ((P.Y : ZMod p))
            ((Q.Y : ZMod p))) := by
      rw [hxr]
      simp only [intCast_subM, intCast_mulM, hlamc, WeierstrassCurve.Affine.addX, WM]
      ring
    have hxrc' := hxrc
    simp only [WM] at hxrc'
    have hyrc : ((yr : Int) : ZMod p)
        = (WM p cA cB).addY ((P.X : ZMod p)) ((Q.X : ZMod p)) ((P.Y : ZMod p))
          ((WM p cA cB).slope ((P.X : ZMod p)) ((Q.X : ZMod p)) ((P.Y : ZMod p))
            ((Q.Y : ZMod p))) := by
      rw [hyr]
      simp only [intCast_subM, intCast_mulM, hlamc, WeierstrassCurve.Affine.addY,
        WeierstrassCurve.Affine.negAddY, WeierstrassCurve.Affine.negY, WM, ← hxrc']
      ring
    have hSval : PtValid p cA cB (Point.mk xr yr false) := by
      refine ⟨Or.inr ⟨rfl, ?_, ?_, ?_, ?_⟩, ?_⟩
      · rw [hxr]; exact mod_nonneg' hpPos _
      · rw [hxr]; exact mod_lt' hpPos _
      · rw [hyr]; exact mod_nonneg' hpPos _
      · rw [hyr]; exact mod_lt' hpPos _
      · apply (on_cast hpPos rfl rfl).mpr
        have heq := (WeierstrassCurve.Affine.nonsingular_add hPns hQns hxy).1
        rw [WM_equation_iff] at heq
        dsimp only
        rw [hxrc, hyrc]
        exact heq
    refine ⟨Point.mk xr yr false, ?_, hSval, ?_⟩
    · simp only [Curve.add, hPI', hQI']
      rw [if_neg (by simp), if_neg (by simp), if_neg hxeq, hi']
    · rw [toM_of_affine _ rfl, toM_of_affine P hPI', toM_of_affine Q hQI',
        WeierstrassCurve.Affine.Point.add_of_imp hxy]
      exact some_congr hxrc hyrc _ _

end AddHom

/-- C7: the group law is associative — for a non-singular curve over an
odd prime and any three valid points (identity or reduced affine
on-curve), `add(add(P,Q),R) = add(P,add(Q,R))`. -/
theorem c7_add_assoc {p : ℕ} [hp : Fact p.Prime] (hodd : p % 2 = 1) (c : Curve)
    (hc : c.P = (p : Int)) (hns : c.isSingular = false) (P Q R : Point)
    (hP : PtValid p c.A c.B P) (hQ : PtValid p c.A c.B Q) (hR : PtValid p c.A c.B R) :
    (c.add P Q).bind (fun S => c.add S R) = (c.add Q R).bind (fun S => c.add P S) := by
  obtain ⟨cP, cA, cB⟩ := c
  dsimp only at hc hP hQ hR hns ⊢
  subst hc
  have hΔ := delta_ne_of_isSingular_false hodd hns
  obtain ⟨S₁, hS₁eq, hS₁v, hS₁hom⟩ := add_hom hodd hΔ P Q hP hQ
  obtain ⟨T₁, hT₁eq, hT₁v, hT₁hom⟩ := add_hom hodd hΔ S₁ R hS₁v hR
  obtain ⟨S₂, hS₂eq, hS₂v, hS₂hom⟩ := add_hom hodd hΔ Q R hQ hR
  obtain ⟨T₂, hT₂eq, hT₂v, hT₂hom⟩ := add_hom hodd hΔ P S₂ hP hS₂v
  rw [hS₁eq, hS₂eq]
  show Curve.add (Curve.mk ((p : ℕ) : Int) cA cB) S₁ R
    = Curve.add (Curve.mk ((p : ℕ) : Int) cA cB) P S₂
  rw [hT₁eq, hT₂eq]
  suffices h : T₁ = T₂ by rw [h]
  apply toM_inj hΔ hT₁v hT₂v
  rw [hT₁hom, hT₂hom, hS₁hom, hS₂hom, add_assoc]

/-- C7 witness: associativity at three concrete points of
`y² = x³ + 1` over `F_11`. -/
theorem c7_witness :
    ((Curve.mk 11 0 1).add (Point.mk 0 1 false) (Point.mk 2 3 false)).bind
        (fun S => (Curve.mk 11 0 1).add S (Point.mk 5 4 false))
      = ((Curve.mk 11 0 1).add (Point.mk 2 3 false) (Point.mk 5 4 false)).bind
        (fun S => (Curve.mk 11 0 1).add (Point.mk 0 1 false) S) := by
  haveI : Fact (Nat.Prime 11) := ⟨by norm_num⟩
  exact c7_add_assoc (p := 11) rfl (Curve.mk 11 0 1) rfl rfl _ _ _
    ⟨Or.inr (by norm_num), rfl⟩ ⟨Or.inr (by norm_num), rfl⟩ ⟨Or.inr (by norm_num), rfl⟩

/-- The tangent step of `walkAndExclude` for the point at index `i`:
skip if the tangent was processed, otherwise process the line, mark the
tangent done and increment the counter. -/
def Engine.walkStepTangent (e : Engine) (P : Point) (processed : Int) :
    Option (Engine × Int) :=
  let pk := pointKey P
  if e.tangentDone.contains pk then some (e, processed)
  else
    match e.processLineFrom P none with
    | none => none
    | some e' =>
      some ({ e' with tangentDone := e'.tangentDone ++ [pk] }, processed + 1)

/-- The inner secant loop of `walkAndExclude` (`for j := 0; j < i; j++`):
skip identity points and pairs already in `secantDone`; otherwise process
the secant, mark the pair done, increment the counter, and break once the
cap is reached. -/
def Engine.secantInner (e : Engine) (P : Point) (maxLines processed : Int) :
    List Point → Option (Engine × Int)
  | [] => some (e, processed)
  | Q :: rest =>
    if Q.Inf then e.secantInner P maxLines processed rest
    else
      let pair := pairKey P Q
      if e.secantDone.contains pair then e.secantInner P maxLines processed rest
      else
        match e.processLineFrom P (some Q) with
        | none => none
        | some e' =>
          let e'' := { e' with secantDone := e'.secantDone ++ [pair] }
          if maxLines > 0 ∧ processed + 1 ≥ maxLines then some (e'', processed + 1)
          else Engine.secantInner e'' P maxLines (processed + 1) rest

/-- The outer index loop of `walkAndExclude`, with structural fuel (the
source loop terminates because `order` only accumulates distinct curve
points; any fuel at least the final `order` length is exact). -/
def Engine.walkAux : Nat → Engine → Int → Int → Nat → Option Engine
  | 0, e, _, _, _ => some e
  | fuel + 1, e, maxLines, processed, i =>
    if i < e.order.length then
      if maxLines > 0 ∧ processed ≥ maxLines then some e
      else
        let P := e.order.getD i infPt
        match e.walkStepTangent P processed with
        | none => none
        | some (e₁, processed₁) =>
          match e₁.secantInner P maxLines processed₁ (e₁.order.take i) with
          | none => none
          | some (e₂, processed₂) =>
            match e₂.KnownCount with
            | some N =>
              if ((e₂.order.length : Int)) = N - 1 then some e₂
              else Engine.walkAux fuel e₂ maxLines processed₂ (i + 1)
            | none => Engine.walkAux fuel e₂ maxLines processed₂ (i + 1)
    else some e

/-- `walkAndExclude(maxLines)`: linear pass over discovered points with a
per-run `processed` counter starting at `0`. -/
def Engine.walkAndExclude (e : Engine) (maxLines : Int) : Option Engine :=
  Engine.walkAux (e.C.P.toNat * e.C.P.toNat + e.order.length + 1) e maxLines 0 0

/-- The body of the `findNextSeed` retry loop, as a function of the drawn
candidate `x`: returns the updated engine and the found seed, if any. -/
def Engine.seedStep (e : Engine) (x : Int) : Engine × Option Point :=
  let p := e.C.P
  let kx := toString x
  if e.deadX.contains kx then (e, none)
  else
    let t := addM (addM (mulM x (mulM x x p) p) (mulM e.C.A x p) p) e.C.B p
    let lg := legendre t p
    if lg = -1 then (e, none)
    else if lg = 0 then
      let P := Point.mk x 0 false
      if (e.found.map Prod.fst).contains (pointKey P) = false then (e, some P)
      else ({ e with deadX := e.deadX ++ [kx] }, none)
    else
      match sqrtModP t p with
      | .error _ => (e, none)
      | .ok y =>
        let P1 := Point.mk x y false
        let P2 := Point.mk x (negM y p) false
        if (e.found.map Prod.fst).contains (pointKey P1) = false then (e, some P1)
        else if (e.found.map Prod.fst).contains (pointKey P2) = false then (e, some P2)
        else ({ e with deadX := e.deadX ++ [kx] }, none)

/-- `findNextSeed` over the stream of random draws (the `tries < 200000`
budget corresponds to the length of the stream). -/
def Engine.findNextSeed (e : Engine) : List Int → Engine × Option Point
  | [] => (e, none)
  | x :: rest =>
    match e.seedStep x with
    | (e', some P) => (e', some P)
    | (e', none) => Engine.findNextSeed e' rest

/-- A fresh engine for `y² = x³ + 1` over `F_11` with the explicit grid. -/
def engGrid11 : Engine :=
  { C := Curve.mk 11 0 1, UseGrid := true, G := newGrid 11, MaxLines := 0,
    KnownCount := none, found := [], order := [], indexOf := [], deadX := [],
    linesDone := [], secantDone := [], tangentDone := [] }

/-- `engGrid11` after `addFound((0,1))`. -/
def engC1a : Engine := (engGrid11.addFound (Point.mk 0 1 false)).1

/-- `engC1a` after `addFound((5,4))`. -/
def engC1b : Engine := (engC1a.addFound (Point.mk 5 4 false)).1

/-- C1 (falsified by the code): in explicit-grid mode, processing the
secant through the found points `(0,1)` and `(5,4)` of `y² = x³ + 1` over
`F_11` marks the lattice point `(9,2)` EXCLUDED even though `(9,2)` is a
true curve point: `thirdIntersection` returns `R = add(P,Q) = (9,9)`,
but the point of the line at `x = 9` is `neg(R) = (9,2)`, which is not in
the keep set passed to `markLineExclusions`. -/
theorem c1_true_point_excluded :
    (engC1b.processLineFrom (Point.mk 0 1 false) (some (Point.mk 5 4 false))).map
        (fun e => (e.G.isExcluded 9 2, e.C.on (Point.mk 9 2 false)))
      = some (true, true) := by
  decide

/-- A fresh engine without the grid on the same curve. -/
def engNoGrid11 : Engine :=
  { C := Curve.mk 11 0 1, UseGrid := false, G := newGrid 11, MaxLines := 0,
    KnownCount := none, found := [], order := [], indexOf := [], deadX := [],
    linesDone := [], secantDone := [], tangentDone := [] }

/-- State with `(0,1)` and `(9,2)` found and the secant through them
processed (so the canonical line `y = 5x + 1` is in `linesDone`, and its
third-intersection bookkeeping also recorded `(5,7)` and `(5,4)`). -/
def engC2 : Engine :=
  match (((engNoGrid11.addFound (Point.mk 0 1 false)).1.addFound
      (Point.mk 9 2 false)).1.processLineFrom (Point.mk 0 1 false)
      (some (Point.mk 9 2 false))) with
  | some e => e
  | none => engNoGrid11

/-- `processLineFrom` is a no-op when the line key is already done. -/
lemma processLineFrom_skip (e : Engine) (P : Point) (Q : Option Point) (L : Line)
    (hL : lineThrough e.C P Q = some L) (hdone : e.linesDone.contains L.key = true) :
    e.processLineFrom P Q = some e := by
  simp only [Engine.processLineFrom, hL, hdone]
  simp

/-- C2 counterexample: from the reachable state `engC2`, invoking the
secant step on `P = (5,4)`, `Q = (0,1)` hits a line whose canonical key
`"m:5|c:1"` is already in `linesDone`; `processLineFrom` skips it, yet the
per-run counter is incremented from `0` to `1` (the claim requires it to
stay `0`). -/
theorem c2_counterexample :
    lineThrough engC2.C (Point.mk 5 4 false) (some (Point.mk 0 1 false))
        = some (Line.mk false 5 1 0) ∧
    engC2.linesDone.contains (Line.mk false 5 1 0).key = true ∧
    engC2.secantDone.contains (pairKey (Point.mk 5 4 false) (Point.mk 0 1 false)) = false ∧
    (engC2.secantInner (Point.mk 5 4 false) 0 0 [Point.mk 0 1 false]).map
        (fun r => (r.2, r.1.linesDone == engC2.linesDone)) = some (1, true) := by
  refine ⟨by decide, by decide, by decide, by decide⟩

/-- C2 (amended): the secant step increments the per-run counter on every
invocation that passes the `secantDone` guard, even when `processLineFrom`
skips the line because its key is already in `linesDone`; such an
invocation leaves the engine unchanged apart from marking the pair done. -/
theorem c2_skipped_line_still_counted (e : Engine) (P Q : Point)
    (maxLines processed : Int) (rest : List Point)
    (hQ : Q.Inf = false) (hpair : e.secantDone.contains (pairKey P Q) = false)
    (L : Line) (hL : lineThrough e.C P (some Q) = some L)
    (hdone : e.linesDone.contains L.key = true) :
    e.secantInner P maxLines processed (Q :: rest)
      = if maxLines > 0 ∧ processed + 1 ≥ maxLines
        then some ({ e with secantDone := e.secantDone ++ [pairKey P Q] }, processed + 1)
        else Engine.secantInner { e with secantDone := e.secantDone ++ [pairKey P Q] }
          P maxLines (processed + 1) rest := by
  rw [Engine.secantInner, if_neg (by rw [hQ]; exact Bool.false_ne_true),
    if_neg (by rw [hpair]; exact Bool.false_ne_true),
    processLineFrom_skip e P (some Q) L hL hdone]

/-- C2 amended-claim witness: the concrete skipped invocation from
`engC2` marks the pair done and increments the counter to `1`. -/
theorem c2_witness :
    engC2.secantInner (Point.mk 5 4 false) 0 0 [Point.mk 0 1 false]
      = if (0 : Int) > 0 ∧ (0 : Int) + 1 ≥ 0
        then some ({ engC2 with secantDone := engC2.secantDone
          ++ [pairKey (Point.mk 5 4 false) (Point.mk 0 1 false)] }, 0 + 1)
        else Engine.secantInner { engC2 with secantDone := engC2.secantDone
          ++ [pairKey (Point.mk 5 4 false) (Point.mk 0 1 false)] }
          (Point.mk 5 4 false) 0 (0 + 1) [] := by
  exact c2_skipped_line_still_counted engC2 (Point.mk 5 4 false) (Point.mk 0 1 false)
    0 0 [] rfl (by decide) (Line.mk false 5 1 0) (by decide) (by decide)

/-- C3 counterexample: on `y² = x³ + 1` over `F_11`, the candidate `x = 1`
has `legendre(1³ + 0·1 + 1) = legendre(2, 11) = -1`, and the seed-step
retries (returns no point) WITHOUT adding `"1"` to `deadX`, contradicting
the claim that such `x` is marked dead before retrying. -/
theorem c3_counterexample :
    legendre (addM (addM (mulM 1 (mulM 1 1 11) 11) (mulM 0 1 11) 11) 1 11) 11 = -1 ∧
    (engNoGrid11.seedStep 1).2 = none ∧
    (engNoGrid11.seedStep 1).1.deadX.contains (toString (1 : Int)) = false := by
  refine ⟨by decide, by decide, by decide⟩

/-- C3 (amended): for a drawn candidate `x` not already dead whose cubic
value is a non-residue, the seed search simply retries: the step returns
no point and leaves the engine — in particular `deadX` — unchanged.
`deadX` is only extended when the candidate's point(s) are already found. -/
theorem c3_nonresidue_not_marked_dead (e : Engine) (x : Int)
    (hdead : e.deadX.contains (toString x) = false)
    (hleg : legendre (addM (addM (mulM x (mulM x x e.C.P) e.C.P)
      (mulM e.C.A x e.C.P) e.C.P) e.C.B e.C.P) e.C.P = -1) :
    e.seedStep x = (e, none) := by
  rw [Engine.seedStep]
  simp only [hdead, Bool.false_eq_true, if_false, hleg, if_pos]

/-- C3 amended-claim witness: the concrete retry at `x = 1`. -/
theorem c3_witness : engNoGrid11.seedStep 1 = (engNoGrid11, none) := by
  exact c3_nonresidue_not_marked_dead engNoGrid11 1 (by decide) (by decide)
